import Mathlib

/-!
Shallow embedding of the core of the `artefacta` build-artefact distribution
tool, together with proofs checking the natural-language specification against
the code.

The embedding mirrors the Rust sources:

* `src/index/version.rs`  — `Version`, its parser and `as_str`
* `src/paths.rs`          — file-name helpers
* `src/index/patch.rs`    — `Patch`, its display name and the patch-name parser
* `src/index/build.rs`    — `Build`
* `src/index/graph.rs`    — `PatchGraph`, `add_build`, `add_patch`,
                            `update_from_file_list`, `patches_needed`
                            (via `petgraph::algo::astar`) and
                            `find_upgrade_path`
* `src/git.rs`            — the tag heuristic `find_tags_to_patch`

Machine integers (`u64` sizes) are modelled as `Nat`; the sizes involved are
file sizes read from metadata, far below `2^64`, so wrap-around is outside the
modelled input range.  Rust strings are modelled as Lean `String`s and their
contents manipulated as `List Char`; all separator patterns are ASCII, so
byte-level splitting and searching in Rust coincides with character-level
splitting here, and byte-wise lexicographic order (Rust `SmolStr`/`str` `Ord`)
agrees with code-point lexicographic order.  Rust panics (`Build::size` /
`Patch::size` on an entry-less artefact, out-of-bounds graph indexing) are
modelled by an outer `Option` (`none` = panic) where a claim depends on them;
they are unreachable for graphs built through the public API (see the
locality-invariant theorem).
-/

namespace Artefacta

/-! ## Version (`src/index/version.rs`) -/

/-- `Version`: short string identifier (`smol_str::SmolStr` in the source). -/
structure Version where
  data : String
deriving DecidableEq, Repr

/-- `InvalidVersion` error type. -/
inductive InvalidVersion
  | ThreeDashes
deriving DecidableEq, Repr

/-- Rust `s.contains("---")`: `---` occurs as a substring. -/
def containsTripleDash (s : String) : Bool :=
  decide (['-', '-', '-'] <:+: s.data)

/-- `Version::from_str` (also `TryFrom<&str>`): reject inputs containing
`---`, otherwise keep the string unchanged. -/
def Version.fromStr (s : String) : Except InvalidVersion Version :=
  if containsTripleDash s then .error .ThreeDashes else .ok ⟨s⟩

/-- `Version::as_str` (and `Display`, which prints the same string). -/
def Version.asStr (v : Version) : String := v.data

/-! ## Paths (`src/paths.rs`) -/

/-- Rust `Path::file_name` for the paths this program manipulates: the last
`/`-separated component (`None` when that component is empty). -/
def fileNameComponent (p : String) : Option String :=
  match (p.data.splitOn '/').getLast? with
  | none => none
  | some cs => if cs.isEmpty then none else some ⟨cs⟩

/-- Split a character list at its last occurrence of `c`:
`some (before, after)`, or `none` when `c` does not occur
(Rust `str::rsplit_once`). -/
def rsplitOnce (c : Char) : List Char → Option (List Char × List Char)
  | [] => none
  | x :: xs =>
    match rsplitOnce c xs with
    | some (pre, post) => some (x :: pre, post)
    | none => if x = c then some ([], xs) else none

/-- Rust `Path::file_stem`: the file name up to (excluding) its last `.`;
a name whose only `.` is the leading one is returned whole. -/
def fileStem (p : String) : Option String :=
  match fileNameComponent p with
  | none => none
  | some name =>
    match rsplitOnce '.' name.data with
    | none => some name
    | some (pre, _) => if pre.isEmpty then some name else some ⟨pre⟩

/-- The prefix of a character list up to (excluding) its first occurrence of
`c` (Rust `splitn(2, c).next()`). -/
def takeUntil (c : Char) : List Char → List Char
  | [] => []
  | x :: xs => if x = c then [] else x :: takeUntil c xs

/-- `paths::file_name`: the file stem, then truncated at the *first* `.`
(`name.splitn(2, '.').next()` in the source). -/
def file_name (p : String) : Option String :=
  match fileStem p with
  | none => none
  | some name => some ⟨takeUntil '.' name.data⟩

/-- `paths::build_path_from_version`: `"{v}.tar.zst"`. -/
def build_path_from_version (v : Version) : String :=
  v.data ++ ".tar.zst"

/-- `paths::build_version_from_path`: parse the `file_name` as a `Version`. -/
def build_version_from_path (p : String) : Except String Version :=
  match file_name p with
  | none => .error "no file stem"
  | some name =>
    match Version.fromStr name with
    | .ok v => .ok v
    | .error _ => .error "invalid version in path"

/-! ## Patch names (`src/index/patch.rs`) -/

/-- `Display for Patch` (the file name of a patch): `{from}-{to}.patch`, or
`{from}---{to}.patch` when either version contains `-`. -/
def patchFileName (vf vt : Version) : String :=
  if vf.data.data.contains '-' || vt.data.data.contains '-' then
    vf.data ++ "---" ++ vt.data ++ ".patch"
  else
    vf.data ++ "-" ++ vt.data ++ ".patch"

/-- Rust `str::split("---")`: split on non-overlapping, leftmost-first
occurrences of the three-dash separator. -/
def splitTripleDash : List Char → List (List Char)
  | '-' :: '-' :: '-' :: rest => [] :: splitTripleDash rest
  | x :: xs =>
    match splitTripleDash xs with
    | [] => [[x]]
    | g :: gs => (x :: g) :: gs
  | [] => [[]]

/-- `index::patch::patch_versions_from_path`: split the `file_name` on `-`
into exactly two parts, else on `---` into exactly two parts, else fail. -/
def patch_versions_from_path (p : String) : Except String (Version × Version) :=
  match file_name p with
  | none => .error "no file stem"
  | some name =>
    let parts := name.data.splitOn '-'
    if parts.length = 2 then
      match Version.fromStr ⟨parts.getD 0 []⟩, Version.fromStr ⟨parts.getD 1 []⟩ with
      | .ok a, .ok b => .ok (a, b)
      | _, _ => .error "invalid version in patch path"
    else
      let parts3 := splitTripleDash name.data
      if parts3.length = 2 then
        match Version.fromStr ⟨parts3.getD 0 []⟩, Version.fromStr ⟨parts3.getD 1 []⟩ with
        | .ok a, .ok b => .ok (a, b)
        | _, _ => .error "invalid version in patch path"
      else
        .error "path cannot be parsed as patch file name pattern with 2 versions"

/-- `Patch::from_path` parses a path into the `(from, to)` version pair. -/
def patchFromPath (p : String) : Except String (Version × Version) :=
  patch_versions_from_path p

/-! ## Tag heuristic (`src/git.rs`) -/

/-- `tag_to_slice`: lowercase the tag and split it on `.` or `-`.
(Rust `str::to_lowercase` is Unicode-aware; the per-character `Char.toLower`
used here agrees with it on ASCII input, which is all this heuristic is fed.) -/
def tag_to_slice (tag : String) : List (List Char) :=
  splitDotDash (tag.data.map Char.toLower)
where
  /-- Rust `split(|c| c == '.' || c == '-')`. -/
  splitDotDash : List Char → List (List Char)
    | [] => [[]]
    | x :: xs =>
      if x = '.' || x = '-' then [] :: splitDotDash xs
      else
        match splitDotDash xs with
        | [] => [[x]]
        | g :: gs => (x :: g) :: gs

/-- Rust `str::parse::<u32>()`: optional leading `+`, then one or more ASCII
digits, value bounded by `u32::MAX`. -/
def parseU32 (cs : List Char) : Option Nat :=
  let ds := match cs with
    | '+' :: rest => rest
    | other => other
  if ds.isEmpty then none
  else if ds.all Char.isDigit then
    let n := ds.foldl (fun acc c => acc * 10 + (c.toNat - '0'.toNat)) 0
    if n < 4294967296 then some n else none
  else none

/-- `dec` inside `find_tags_to_patch`: parse as `u32`, `checked_sub(1)`,
render back to decimal. -/
def decTok (cs : List Char) : Option (List Char) :=
  match parseU32 cs with
  | none => none
  | some 0 => none
  | some (n + 1) => some (Nat.toDigits 10 n)

/-- Fuelled worker for `humanCmp` (fuel keeps the recursion structural; each
step strictly shortens the first list, so `a.length + 1` fuel always
suffices — the `0` case is unreachable). -/
def humanCmpFuel : Nat → List Char → List Char → Ordering
  | 0, _, _ => .eq
  | fuel + 1, a, b =>
    match a, b with
    | [], [] => .eq
    | [], _ :: _ => .lt
    | _ :: _, [] => .gt
    | x :: xs, y :: ys =>
      if x.isDigit && y.isDigit then
        let da := (x :: xs).takeWhile Char.isDigit
        let ra := (x :: xs).dropWhile Char.isDigit
        let db := (y :: ys).takeWhile Char.isDigit
        let rb := (y :: ys).dropWhile Char.isDigit
        let va := da.foldl (fun acc c => acc * 10 + (c.toNat - '0'.toNat)) 0
        let vb := db.foldl (fun acc c => acc * 10 + (c.toNat - '0'.toNat)) 0
        match compare va vb with
        | .eq => humanCmpFuel fuel ra rb
        | o => o
      else
        match compare x y with
        | .eq => humanCmpFuel fuel xs ys
        | o => o

/-- The comparator of the `human_sort` crate dependency (`human_sort::compare`),
used by `find_tags_to_patch` to sort tags: character-wise comparison, except
that maximal runs of ASCII digits are compared by numeric value. -/
def humanCmp (a b : List Char) : Ordering :=
  humanCmpFuel (a.length + 1) a b

/-- `find_tags_to_patch`: for each position of the current version's token
list (last token first), decrement that token numerically; among the
human-sorted tags, pick the last whose tokenization starts with the resulting
prefix. -/
def find_tags_to_patch (current : String) (tags : List String) : List String :=
  -- Rust `tags.sort_by(|a, b| human_sort::compare(a, b))` is a stable sort;
  -- stable-sort output is uniquely determined by the comparator, so the
  -- (stable) insertion sort models it faithfully.
  let sorted := List.insertionSort (fun a b => humanCmp a.data b.data ≠ .gt) tags
  let parsed := sorted.map tag_to_slice
  let cur := tag_to_slice current
  (List.range cur.length).filterMap fun posFromEnd =>
    match cur.reverse.get? posFromEnd with
    | none => none
    | some t =>
      match decTok t with
      | none => none
      | some x =>
        let pos := cur.length - posFromEnd - 1
        let pre := cur.set pos x
        match (parsed.enum.filter fun it => (pre.take (pos + 1)).isPrefixOf it.2).getLast? with
        | none => none
        | some (idx, _) => sorted.get? idx

/-! ## Storage entries (`src/storage/entry.rs`) -/

/-- `Entry { storage, path, size }`.  The `Storage` descriptor is never
inspected by the graph code, only carried and compared; it is modelled by an
opaque token string.  `size : u64` is modelled as `Nat` (file sizes). -/
structure Entry where
  storage : String
  path : String
  size : Nat
deriving DecidableEq, Repr

/-- `graph::Location`. -/
inductive Location
  | Local
  | Remote
deriving DecidableEq, Repr

/-! ## Build and Patch (`src/index/build.rs`, `src/index/patch.rs`) -/

/-- `Build { version, local, remote, checksum }`.  Rust field names `local`
and `remote` are Lean keywords, hence `localEnt`/`remoteEnt`; the checksum is
an opaque token (never inspected by the code under scrutiny). -/
structure Build where
  version : Version
  localEnt : Option Entry
  remoteEnt : Option Entry
  checksum : Option String
deriving DecidableEq, Repr

/-- `Build::new`. -/
def Build.new (v : Version) : Build :=
  { version := v, localEnt := none, remoteEnt := none, checksum := none }

/-- `Build::set_local` / `set_remote`, dispatched on a `Location`. -/
def Build.setLoc (loc : Location) (e : Entry) (b : Build) : Build :=
  match loc with
  | .Local => { b with localEnt := some e }
  | .Remote => { b with remoteEnt := some e }

/-- `Build::size`: the size of the local entry, else the remote entry;
panics (`none`) when neither exists. -/
def Build.size? (b : Build) : Option Nat :=
  match b.localEnt with
  | some e => some e.size
  | none =>
    match b.remoteEnt with
    | some e => some e.size
    | none => none

/-- `Patch { from, to, local, remote }`.  Rust field names `from`, `local`,
`remote` are Lean keywords, hence `fromV`/`toV`/`localEnt`/`remoteEnt`. -/
structure Patch where
  fromV : Version
  toV : Version
  localEnt : Option Entry
  remoteEnt : Option Entry
deriving DecidableEq, Repr

/-- `Patch::new`. -/
def Patch.new (vf vt : Version) : Patch :=
  { fromV := vf, toV := vt, localEnt := none, remoteEnt := none }

/-- `Patch::set_local` / `set_remote`, dispatched on a `Location`. -/
def Patch.setLoc (loc : Location) (e : Entry) (p : Patch) : Patch :=
  match loc with
  | .Local => { p with localEnt := some e }
  | .Remote => { p with remoteEnt := some e }

/-- `Patch::size`, defaulted: the source panics when the patch has neither a
local nor a remote entry.  Inside `patches_needed` this is used as the A*
edge-cost function; every edge inserted through the public API carries an
entry (locality invariant), so the `0` default is unreachable there. -/
def Patch.sizeD (p : Patch) : Nat :=
  match p.localEnt with
  | some e => e.size
  | none =>
    match p.remoteEnt with
    | some e => e.size
    | none => 0

/-- Lexicographic comparison of character lists by code point.  On UTF-8 data
this coincides with Rust's byte-wise `str`/`SmolStr` ordering (UTF-8 preserves
code-point order). -/
def lexCmp : List Char → List Char → Ordering
  | [], [] => .eq
  | [], _ :: _ => .lt
  | _ :: _, [] => .gt
  | x :: xs, y :: ys =>
    if x.toNat < y.toNat then .lt
    else if y.toNat < x.toNat then .gt
    else lexCmp xs ys

/-- The derived `Ord` on `Version` (ordering of the underlying string). -/
def versionCmp (a b : Version) : Ordering :=
  lexCmp a.data.data b.data.data

/-- The derived `Ord` on `Patch` used by `path.sort()` in `patches_needed`:
lexicographic on the fields in declaration order (`from`, then `to`, then the
two `Option<Entry>` fields).  All patches sorted there are freshly built by
`Patch::new` — both entry fields are `None` and always compare equal — so the
comparison is the `(from, to)` pair of versions. -/
def patchCmp (p q : Patch) : Ordering :=
  match versionCmp p.fromV q.fromV with
  | .eq => versionCmp p.toV q.toV
  | o => o

/-- The `≤` of the `Patch` ordering (`cmp ≠ Greater`), the relation the
stable sort `path.sort()` sorts by. -/
def patchLe (p q : Patch) : Prop :=
  patchCmp p q ≠ .gt

instance : DecidableRel patchLe := fun p q => by
  unfold patchLe; infer_instance

/-! ## The patch graph (`src/index/graph.rs`)

`petgraph::Graph<Build, Patch>` (a *directed* graph, per petgraph's default
and the source's own doc comment) is modelled by the node-weight list
`nodes` (index order = `NodeIndex` order) and the edge list `edges` of
`(source index, target index, weight)` triples (index order = `EdgeIndex`
order).  The two `HashMap` lookup helpers are modelled as insertion-ordered
association lists — the code only inserts fresh keys and never removes any,
so association-list equality is HashMap equality plus insertion order. -/

/-- Association-list lookup (`HashMap::get`). -/
def lookupA {κ β : Type} [DecidableEq κ] : List (κ × β) → κ → Option β
  | [], _ => none
  | (k', v) :: rest, k => if k' = k then some v else lookupA rest k

/-- In-place update of the element at an index; no-op when out of range
(`petgraph`'s `node_weight_mut`/`edge_weight_mut` on a valid index). -/
def modifyIdx {γ : Type} : List γ → Nat → (γ → γ) → List γ
  | [], _, _ => []
  | c :: cs, 0, f => f c :: cs
  | c :: cs, n + 1, f => c :: modifyIdx cs n f

/-- `PatchGraph { graph, builds, patches }`. -/
structure PatchGraph where
  nodes : List Build
  edges : List (Nat × Nat × Patch)
  builds : List (Version × Nat)
  patches : List ((Version × Version) × Nat)
deriving DecidableEq, Repr

/-- `PatchGraph::empty`. -/
def PatchGraph.empty : PatchGraph :=
  { nodes := [], edges := [], builds := [], patches := [] }

/-- `PatchGraph::add_build`: upsert the Build for `version` and set the
`location` entry on it.  (The `Result` in the source can only fail on an
internally inconsistent index map, which the map discipline makes impossible;
the operation is total here.) -/
def PatchGraph.add_build (g : PatchGraph) (v : Version) (e : Entry)
    (loc : Location) : PatchGraph :=
  match lookupA g.builds v with
  | some idx => { g with nodes := modifyIdx g.nodes idx (Build.setLoc loc e) }
  | none =>
    { g with
      nodes := g.nodes ++ [Build.setLoc loc e (Build.new v)],
      builds := g.builds ++ [(v, g.nodes.length)] }

/-- `PatchGraph::add_patch`: upsert the Patch for `(from, to)` and set the
`location` entry on it; a *new* edge requires both endpoint builds to exist
(else an error, with the graph unchanged). -/
def PatchGraph.add_patch (g : PatchGraph) (vf vt : Version) (e : Entry)
    (loc : Location) : Except String PatchGraph :=
  match lookupA g.patches (vf, vt) with
  | some idx =>
    .ok { g with edges := modifyIdx g.edges idx (fun t => (t.1, t.2.1, Patch.setLoc loc e t.2.2)) }
  | none =>
    match lookupA g.builds vf with
    | none => .error "cannot find prev build"
    | some prevIdx =>
      match lookupA g.builds vt with
      | none => .error "cannot find next build"
      | some nextIdx =>
        .ok { g with
              edges := g.edges ++ [(prevIdx, nextIdx, Patch.setLoc loc e (Patch.new vf vt))],
              patches := g.patches ++ [((vf, vt), g.edges.length)] }

/-- `add_patch` with the error discarded: on failure the graph is unchanged
(the source fails before any mutation).  This is how `update_from_file_list`
uses it — a failed patch insertion is logged and skipped. -/
def PatchGraph.addPatchD (g : PatchGraph) (vf vt : Version) (e : Entry)
    (loc : Location) : PatchGraph :=
  match g.add_patch vf vt e loc with
  | .ok g' => g'
  | .error _ => g

/-- The builds pass of `update_from_file_list`: for each entry (skipping
those whose path ends in `/`), parse the version from the path — a parse
failure aborts the pass (`?` in the source) — and `add_build` it. -/
def procBuilds (loc : Location) : PatchGraph → List Entry → PatchGraph × Option String
  | g, [] => (g, none)
  | g, e :: rest =>
    if e.path.data.getLast? = some '/' then procBuilds loc g rest
    else
      match build_version_from_path e.path with
      | .error m => (g, some m)
      | .ok v => procBuilds loc (g.add_build v e loc) rest

/-- The patches pass of `update_from_file_list`: for each entry (skipping
those whose path ends in `/`), parse the `(from, to)` pair — a parse failure
aborts the pass (`?` in the source) — and `add_patch` it, logging-and-skipping
insertion failures. -/
def procPatches (loc : Location) : PatchGraph → List Entry → PatchGraph × Option String
  | g, [] => (g, none)
  | g, e :: rest =>
    if e.path.data.getLast? = some '/' then procPatches loc g rest
    else
      match patchFromPath e.path with
      | .error m => (g, some m)
      | .ok (vf, vt) => procPatches loc (g.addPatchD vf vt e loc) rest

/-- Rust `str::ends_with(pat)` for an ASCII pattern. -/
def strEndsWith (s pat : String) : Bool :=
  pat.data.isSuffixOf s.data

/-- `PatchGraph::update_from_file_list`: partition the listing into builds
(`.tar.zst`) and patches (`.patch.zst`), add all builds, then all patches.
Returns the updated graph together with the error result (`none` = `Ok(())`). -/
def PatchGraph.update_from_file_list (g : PatchGraph) (list : List Entry)
    (loc : Location) : PatchGraph × Option String :=
  match procBuilds loc g (list.filter (fun e => strEndsWith e.path ".tar.zst")) with
  | (g1, none) => procPatches loc g1 (list.filter (fun e => strEndsWith e.path ".patch.zst"))
  | (g1, some m) => (g1, some m)

/-! ## A* pathfinding (`petgraph::algo::astar`, as called by
`PatchGraph::patches_needed` with edge cost `Patch::size()` and zero
heuristic).

The priority queue (`BinaryHeap<MinScored<K, N>>`) pops a minimum-score
element; which of several minimal elements is popped is unspecified in Rust
(heap shape dependent) — here the earliest-pushed minimum is popped.  The
`scores` and `path_tracker` hashmaps are association lists with in-place
update. -/

/-- Update-or-append for an association list (`HashMap::insert`). -/
def setA {κ β : Type} [DecidableEq κ] : List (κ × β) → κ → β → List (κ × β)
  | [], k, v => [(k, v)]
  | (k', v') :: rest, k, v =>
    if k' = k then (k, v) :: rest else (k', v') :: setA rest k v

/-- Pop a minimal-score element (first among equals) from the heap model. -/
def popMin : List (Nat × Nat) → Option ((Nat × Nat) × List (Nat × Nat))
  | [] => none
  | x :: rest =>
    match popMin rest with
    | none => some (x, rest)
    | some (y, rest') => if x.1 ≤ y.1 then some (x, rest) else some (y, x :: rest')

/-- The outgoing edges of node `n` (petgraph `graph.edges(n)` on a directed
graph iterates the adjacency list newest-first, i.e. reverse insertion
order). -/
def PatchGraph.outEdges (g : PatchGraph) (n : Nat) : List (Nat × Nat × Patch) :=
  (g.edges.filter (fun t => t.1 = n)).reverse

/-- A* search state: visited set, g-scores, predecessor tracker, heap. -/
structure AState where
  visited : List Nat
  scores : List (Nat × Nat)
  tracker : List (Nat × Nat)
  heap : List (Nat × Nat)
deriving DecidableEq, Repr

/-- Edge relaxation: the body of the `for edge in graph.edges(node)` loop,
expanding `node` whose g-score is `nodeScore`. -/
def relaxEdge (node nodeScore : Nat) (st : AState) (ed : Nat × Nat × Patch) : AState :=
  if ed.2.1 ∈ st.visited then st
  else
    match lookupA st.scores ed.2.1 with
    | some old =>
      if nodeScore + ed.2.2.sizeD < old then
        { st with
          scores := setA st.scores ed.2.1 (nodeScore + ed.2.2.sizeD),
          tracker := setA st.tracker ed.2.1 node,
          heap := (nodeScore + ed.2.2.sizeD, ed.2.1) :: st.heap }
      else
        { st with heap := (old, ed.2.1) :: st.heap }
    | none =>
      { st with
        scores := setA st.scores ed.2.1 (nodeScore + ed.2.2.sizeD),
        tracker := setA st.tracker ed.2.1 node,
        heap := (nodeScore + ed.2.2.sizeD, ed.2.1) :: st.heap }

/-- Walk the predecessor tracker back from `n` (petgraph
`reconstruct_path_to`, already in forward order).  The fuel bounds the walk;
`tracker.length + 1` steps always reach a tracker-less node. -/
def reconstruct (tracker : List (Nat × Nat)) (n : Nat) : Nat → List Nat
  | 0 => [n]
  | fuel + 1 =>
    match lookupA tracker n with
    | none => [n]
    | some p => reconstruct tracker p fuel ++ [n]

/-- The `while let Some(MinScored(_, node)) = visit_next.pop()` loop of
`petgraph::algo::astar` (zero heuristic, so the heap score is the g-score).
The fuel bounds the number of iterations; each visited node pushes one heap
element per outgoing edge and each iteration pops one, so
`edges + nodes + 2` iterations always drain the heap — the `0` case is
unreachable (see `astarRun`). -/
def astarLoop (g : PatchGraph) (goal : Nat) : Nat → AState → Option (Nat × List Nat)
  | 0, _ => none
  | fuel + 1, st =>
    match popMin st.heap with
    | none => none
    | some ((_, node), heap') =>
      if node = goal then
        some ((lookupA st.scores node).getD 0,
              reconstruct st.tracker node (st.tracker.length + 1))
      else if node ∈ st.visited then
        astarLoop g goal fuel { st with heap := heap' }
      else
        let nodeScore := (lookupA st.scores node).getD 0
        let st' := (g.outEdges node).foldl (relaxEdge node nodeScore)
          { st with visited := node :: st.visited, heap := heap' }
        astarLoop g goal fuel st'

/-- `petgraph::algo::astar(&graph, start, |f| f == goal, |e| e.weight().size(), |_| 0)`. -/
def astarRun (g : PatchGraph) (start goal : Nat) : Option (Nat × List Nat) :=
  astarLoop g goal (g.edges.length + g.nodes.length + 2)
    { visited := [], scores := [(start, 0)], tracker := [], heap := [(0, start)] }

/-- `self.graph[idx].version`: node-weight lookup; the source indexing panics
out of range, which is unreachable for the indices A* returns — defaulted to
the empty version. -/
def PatchGraph.nodeVersion (g : PatchGraph) (i : Nat) : Version :=
  match g.nodes.get? i with
  | some b => b.version
  | none => ⟨""⟩

/-- `steps.windows(2)` of a node sequence, as index pairs. -/
def adjPairs : List Nat → List (Nat × Nat)
  | [] => []
  | [_] => []
  | x :: y :: rest => (x, y) :: adjPairs (y :: rest)

/-- The patch list built from an A* node sequence: one `Patch::new` per
window, then `path.sort()` — the *stable* sort by the derived `Patch`
ordering (insertion sort models Rust's stable `sort`). -/
def routePatches (g : PatchGraph) (steps : List Nat) : List Patch :=
  List.insertionSort patchLe
    ((adjPairs steps).map (fun ij => Patch.new (g.nodeVersion ij.1) (g.nodeVersion ij.2)))

/-- `PatchGraph::patches_needed`: resolve both versions to node indices, run
A*, and return the total cost with the (sorted) patch list. -/
def PatchGraph.patches_needed (g : PatchGraph) (vf vt : Version) :
    Except String (Nat × List Patch) :=
  match lookupA g.builds vf with
  | none => .error "unknown from version"
  | some fromIdx =>
    match lookupA g.builds vt with
    | none => .error "unknown to version"
    | some toIdx =>
      match astarRun g fromIdx toIdx with
      | none => .error "no A* solution for patch"
      | some (cost, steps) => .ok (cost, routePatches g steps)

/-- `graph::UpgradePath`. -/
inductive UpgradePath
  | ApplyPatches (patches : List Patch)
  | InstallBuild (build : Build)
deriving DecidableEq, Repr

/-- `PatchGraph::find_upgrade_path`.  The outer `Option` models the panics of
`self.graph[idx]` on a stale index and of `Build::size` on an entry-less
build; both are unreachable for graphs built through the public API.  The
inner `Except` is the source's `Result`: an unknown `to` version is an error;
otherwise choose `ApplyPatches` exactly when the chain cost is strictly below
the target build size, and fall back to `InstallBuild` in every other case
(including a failed `patches_needed`). -/
def PatchGraph.find_upgrade_path (g : PatchGraph) (vf vt : Version) :
    Option (Except String UpgradePath) :=
  match lookupA g.builds vt with
  | none => some (.error "unknown build")
  | some idx =>
    match g.nodes.get? idx with
    | none => none
    | some nextBuild =>
      match nextBuild.size? with
      | none => none
      | some buildSize =>
        match g.patches_needed vf vt with
        | .ok (size, path) =>
          if buildSize > size then some (.ok (.ApplyPatches path))
          else some (.ok (.InstallBuild nextBuild))
        | .error _ => some (.ok (.InstallBuild nextBuild))

/-- `PatchGraph::has_build`. -/
def PatchGraph.has_build (g : PatchGraph) (v : Version) : Bool :=
  (lookupA g.builds v).isSome

/-- `PatchGraph::has_patch`. -/
def PatchGraph.has_patch (g : PatchGraph) (vf vt : Version) : Bool :=
  (lookupA g.patches (vf, vt)).isSome

/-! ## A generic view of the two passes of `update_from_file_list`

Both passes are folds of keyed upserts over a cell list (`nodes` resp.
`edges`) and an insertion-ordered key map (`builds` resp. `patches`): each
entry is classified (skip a `/`-terminated path, abort the pass on a parse
failure, or yield a key), and the key is either modified in place or freshly
appended (subject, for patches, to an endpoint guard).  `runSys` is this
common shape; `procBuilds`/`procPatches` are proved equal to its two
instances, which is what the idempotence proof runs on. -/

/-- What one entry makes the pass do. -/
inductive StepAct (K : Type)
  | abort (msg : String)
  | skip
  | key (k : K)

/-- The generic upsert fold: state is `(cells, key map)`; `cl` classifies an
item, `wr it` overwrites the locality field of a cell, `fr k it` builds a
fresh cell (`none` = guard failed, skip the item). -/
def runSys {K C Item : Type} [DecidableEq K] (cl : Item → StepAct K)
    (wr : Item → C → C) (fr : K → Item → Option C) :
    (List C × List (K × Nat)) → List Item → (List C × List (K × Nat)) × Option String
  | st, [] => (st, none)
  | st, it :: rest =>
    match cl it with
    | .abort m => (st, some m)
    | .skip => runSys cl wr fr st rest
    | .key k =>
      match lookupA st.2 k with
      | some i => runSys cl wr fr (modifyIdx st.1 i (wr it), st.2) rest
      | none =>
        match fr k it with
        | none => runSys cl wr fr st rest
        | some c0 => runSys cl wr fr (st.1 ++ [c0], st.2 ++ [(k, st.1.length)]) rest

/-- The error result of a pass, determined by the items alone. -/
def errOf {K Item : Type} (cl : Item → StepAct K) : List Item → Option String
  | [] => none
  | it :: rest =>
    match cl it with
    | .abort m => some m
    | _ => errOf cl rest

/-- The key an item contributes, if any. -/
def keyOf {K Item : Type} (cl : Item → StepAct K) (it : Item) : Option K :=
  match cl it with
  | .key k => some k
  | _ => none

/-- The cell an item writes to, relative to a key map. -/
def cellOf {K Item : Type} [DecidableEq K] (cl : Item → StepAct K)
    (m : List (K × Nat)) (it : Item) : Option Nat :=
  match keyOf cl it with
  | none => none
  | some k => lookupA m k

/-- The items a pass actually processes: the prefix before the first abort. -/
def effPre {K Item : Type} (cl : Item → StepAct K) : List Item → List Item
  | [] => []
  | it :: rest =>
    match cl it with
    | .abort _ => []
    | _ => it :: effPre cl rest

/-- The last processed item writing to cell `i` (relative to key map `m`). -/
def lastWr {K Item : Type} [DecidableEq K] (cl : Item → StepAct K)
    (m : List (K × Nat)) (i : Nat) : List Item → Option Item
  | [] => none
  | it :: rest =>
    match cl it with
    | .abort _ => none
    | _ =>
      match lastWr cl m i rest with
      | some x => some x
      | none => if cellOf cl m it = some i then some it else none

/-- Classification of a listing entry by the builds pass. -/
def clBuild (e : Entry) : StepAct Version :=
  if e.path.data.getLast? = some '/' then .skip
  else
    match build_version_from_path e.path with
    | .error m => .abort m
    | .ok v => .key v

/-- The builds pass's cell write: set the `location` entry on a build. -/
def wrBuild (loc : Location) (e : Entry) (b : Build) : Build :=
  Build.setLoc loc e b

/-- The builds pass's fresh cell: a new `Build` with the entry set. -/
def frBuild (loc : Location) (v : Version) (e : Entry) : Option Build :=
  some (Build.setLoc loc e (Build.new v))

/-- Classification of a listing entry by the patches pass. -/
def clPatch (e : Entry) : StepAct (Version × Version) :=
  if e.path.data.getLast? = some '/' then .skip
  else
    match patchFromPath e.path with
    | .error m => .abort m
    | .ok vv => .key vv

/-- The patches pass's cell write: set the `location` entry on an edge's
patch weight. -/
def wrPatch (loc : Location) (e : Entry) (t : Nat × Nat × Patch) : Nat × Nat × Patch :=
  (t.1, t.2.1, Patch.setLoc loc e t.2.2)

/-- The patches pass's fresh cell: requires both endpoint builds to exist in
the (fixed) builds map `B`. -/
def frPatch (B : List (Version × Nat)) (loc : Location) :
    Version × Version → Entry → Option (Nat × Nat × Patch)
  | (vf, vt), e =>
    match lookupA B vf with
    | none => none
    | some pi =>
      match lookupA B vt with
      | none => none
      | some ni => some (pi, ni, Patch.setLoc loc e (Patch.new vf vt))

/-- `update_from_file_list` with its two filtered sub-lists abstracted
(definitionally equal to `update_from_file_list` at the filtered lists). -/
def updateCore (loc : Location) (bl pl : List Entry) (g : PatchGraph) :
    PatchGraph × Option String :=
  match procBuilds loc g bl with
  | (g1, none) => procPatches loc g1 pl
  | (g1, some m) => (g1, some m)

/-! ## Concrete graphs used as witnesses and counterexamples -/

/-- A local-storage entry, as in the tests of `src/index/graph.rs`. -/
def sampleEntry (p : String) (sz : Nat) : Entry :=
  { storage := "filesystem:/tmp", path := p, size := sz }

/-- The graph of the repository test `this_is_fine`: builds `1`, `2`, `3`
(sizes 42/64/72) and patches `1-2` (size 2), `2-3` (size 20). -/
def sampleGraph : PatchGraph :=
  (PatchGraph.empty.update_from_file_list
    [sampleEntry "1.tar.zst" 42, sampleEntry "1-2.patch.zst" 2,
     sampleEntry "2-3.patch.zst" 20, sampleEntry "2.tar.zst" 64,
     sampleEntry "3.tar.zst" 72] .Local).1

/-- Two known builds with no patch between them. -/
def discGraph : PatchGraph :=
  (PatchGraph.empty.update_from_file_list
    [sampleEntry "x.tar.zst" 10, sampleEntry "y.tar.zst" 11] .Local).1

/-- Builds `a`, `b` and a single patch added in direction `a → b`. -/
def c3Graph : PatchGraph :=
  (PatchGraph.empty.update_from_file_list
    [sampleEntry "a.tar.zst" 40, sampleEntry "b.tar.zst" 41,
     sampleEntry "a-b.patch.zst" 3] .Local).1

/-- Builds `b`, `a`, `c` with patches `b → a` and `a → c`: the (unique) patch
route from `b` to `c` is `[b→a, a→c]`, whose lexicographic order by
`(from, to)` differs from application order. -/
def c2Graph : PatchGraph :=
  (PatchGraph.empty.update_from_file_list
    [sampleEntry "b.tar.zst" 50, sampleEntry "a.tar.zst" 50,
     sampleEntry "c.tar.zst" 50, sampleEntry "b-a.patch.zst" 1,
     sampleEntry "a-c.patch.zst" 1] .Local).1

/-- A two-build graph with one `a → b` patch, built through the public
mutation API with arbitrary versions and entries (used to state how routing
treats patch direction). -/
def twoBuildOnePatch (a b : Version) (ea eb ep : Entry) : PatchGraph :=
  ((PatchGraph.empty.add_build a ea .Local).add_build b eb .Local).addPatchD
    a b ep .Local

/-- The property claimed of `patches_needed`'s output list (this is the
claim's wording, *not* the code): the patches form the ordered application
sequence of a route from `vf` to `vt` — the first starts at `vf`, each
subsequent patch starts where the previous one ended, and the last ends at
`vt`. -/
def isApplicationSequence (vf vt : Version) : List Patch → Bool
  | [] => vf = vt
  | [p] => decide (p.fromV = vf) && decide (p.toV = vt)
  | p :: q :: rest =>
    decide (p.fromV = vf) && decide (q.fromV = p.toV)
      && isApplicationSequence p.toV vt (q :: rest)

/-- An `i → j` edge exists in the graph (in its stored direction). -/
def PatchGraph.isEdge (g : PatchGraph) (i j : Nat) : Prop :=
  ∃ t ∈ g.edges, t.1 = i ∧ t.2.1 = j

/-- The tracker invariant of the A* state: every recorded predecessor edge is
a real directed edge of the graph. -/
def TrackerInv (g : PatchGraph) (st : AState) : Prop :=
  ∀ k p, lookupA st.tracker k = some p → g.isEdge p k

/-- Every node and every edge weight of the graph carries at least one
storage entry (the locality invariant). -/
def PatchGraph.allLocated (g : PatchGraph) : Prop :=
  (∀ b ∈ g.nodes, b.localEnt.isSome || b.remoteEnt.isSome)
  ∧ (∀ t ∈ g.edges, t.2.2.localEnt.isSome || t.2.2.remoteEnt.isSome)

/-- The states reachable from the empty graph through the mutation API
(`add_build`, `add_patch` — whose failure leaves the graph unchanged — and
`update_from_file_list`). -/
inductive Reachable : PatchGraph → Prop
  | empty : Reachable PatchGraph.empty
  | add_build {g} (v : Version) (e : Entry) (loc : Location) :
      Reachable g → Reachable (g.add_build v e loc)
  | add_patch {g} (vf vt : Version) (e : Entry) (loc : Location) :
      Reachable g → Reachable (g.addPatchD vf vt e loc)
  | update {g} (list : List Entry) (loc : Location) :
      Reachable g → Reachable (g.update_from_file_list list loc).1

end Artefacta

deriving instance DecidableEq for Except

namespace Artefacta

/-! ## Claims about versions, names and the tag heuristic -/

/-- **C4.** `Version::parse` fails with `InvalidVersion::ThreeDashes` iff the
input contains the substring `---`; on success, `as_str` (and `Display`)
return exactly the input string. -/
theorem c4_version_parse_roundtrip (s : String) :
    (Version.fromStr s = .error .ThreeDashes ↔ ['-', '-', '-'] <:+: s.data)
    ∧ (∀ v, Version.fromStr s = .ok v → v.asStr = s) := by
  constructor
  · unfold Version.fromStr containsTripleDash
    by_cases h : ['-', '-', '-'] <:+: s.data
    · simp [h]
    · simp [h]
  · intro v hv
    unfold Version.fromStr at hv
    split at hv
    · cases hv
    · cases hv
      rfl

/-- Witness for `c4_version_parse_roundtrip` at concrete inputs (the examples
from the test in `src/index/version.rs`). -/
theorem c4_version_parse_roundtrip_witness :
    Version.fromStr "module---20200629" = .error .ThreeDashes
    ∧ Version.asStr ⟨"module-20200629"⟩ = "module-20200629" :=
  ⟨(c4_version_parse_roundtrip "module---20200629").1.mpr (by decide),
   (c4_version_parse_roundtrip "module-20200629").2 ⟨"module-20200629"⟩ (by decide)⟩

/-- **C6** (code-bug evidence): `paths::file_name` truncates the file stem at
its *first* dot instead of only stripping a trailing `.tar`, so a name
containing `.` is not recovered from `{name}.tar.zst`.  The repository's own
test `parsing_weird_patch_names` (src/index/patch.rs) requires the dotted name
`module-v1.2.3---module-v1.2.4` to survive `file_name`, which fails here. -/
theorem c6_file_name_eval :
    file_name ("v1.2" ++ ".tar.zst") = some "v1"
    ∧ some "v1" ≠ some "v1.2"
    ∧ file_name ("build1" ++ ".tar.zst") = some "build1"
    ∧ file_name "foo/bar/module-v1.2.3---module-v1.2.4.tar.zst" = some "module-v1"
    := by decide

/-- **C5** (code-bug evidence): the displayed patch file name is as specified,
but parsing it back through `patch_versions_from_path` does not recover the
version pair when the versions contain `.` — the first-dot truncation in
`paths::file_name` (see C6) destroys the name.  The concrete versions are the
ones from the repository's own test `parsing_weird_patch_names`. -/
theorem c5_patch_name_roundtrip_eval :
    patchFileName ⟨"module-v1.2.3"⟩ ⟨"module-v1.2.4"⟩
      = "module-v1.2.3---module-v1.2.4.patch"
    ∧ patch_versions_from_path
        (patchFileName ⟨"module-v1.2.3"⟩ ⟨"module-v1.2.4"⟩ ++ ".zst")
      = .ok (⟨"module"⟩, ⟨"v1"⟩)
    ∧ patch_versions_from_path (patchFileName ⟨"module-v1.2.3"⟩ ⟨"module-v1.2.4"⟩)
      = .ok (⟨"module"⟩, ⟨"v1"⟩)
    ∧ ((⟨"module"⟩ : Version), (⟨"v1"⟩ : Version))
        ≠ ((⟨"module-v1.2.3"⟩ : Version), (⟨"module-v1.2.4"⟩ : Version))
    ∧ patch_versions_from_path (patchFileName ⟨"1"⟩ ⟨"2"⟩ ++ ".zst") = .ok (⟨"1"⟩, ⟨"2"⟩)
    := by decide

/-- **C9.** The tag heuristic on the spec's concrete inputs: for current
version `IL40.2.19` (and equivalently the tokenization-equal `il40-2-19`) and
the given tag list, the result is `["IL40.2.18", "IL40.1.0"]` in that order. -/
theorem c9_tag_heuristic :
    find_tags_to_patch "IL40.2.19"
        ["IL40.0.0", "IL40.0.1", "IL40.1.0", "IL40.2.17", "IL40.2.18"]
      = ["IL40.2.18", "IL40.1.0"]
    ∧ find_tags_to_patch "il40-2-19"
        ["IL40.0.0", "IL40.0.1", "IL40.1.0", "IL40.2.17", "IL40.2.18"]
      = ["IL40.2.18", "IL40.1.0"] := by decide

/-! ## Claims about the upgrade planner -/

/-- **C1.** When `to` is a known build (with the size panic unreachable, i.e.
the build carries an entry): `find_upgrade_path` returns `ApplyPatches chain`
iff `patches_needed` found a route of some cost strictly below the build's
size; in every other case (cost not below the size, or `patches_needed`
failed) it returns `InstallBuild` of that build; and when `to` is unknown it
returns an error. -/
theorem c1_find_upgrade_path_choice (g : PatchGraph) (vf vt : Version) :
    (∀ idx b sz, lookupA g.builds vt = some idx → g.nodes.get? idx = some b →
      b.size? = some sz →
      ((∀ ps, g.find_upgrade_path vf vt = some (.ok (.ApplyPatches ps))
          ↔ ∃ c, g.patches_needed vf vt = .ok (c, ps) ∧ c < sz)
       ∧ (∀ c ps, g.patches_needed vf vt = .ok (c, ps) → sz ≤ c →
          g.find_upgrade_path vf vt = some (.ok (.InstallBuild b)))
       ∧ ((g.patches_needed vf vt).isOk = false →
          g.find_upgrade_path vf vt = some (.ok (.InstallBuild b)))))
    ∧ (lookupA g.builds vt = none →
        g.find_upgrade_path vf vt = some (.error "unknown build")) := by
  constructor
  · intro idx b sz hidx hb hsz
    refine ⟨?_, ?_, ?_⟩
    · intro ps
      constructor
      · intro h
        unfold PatchGraph.find_upgrade_path at h
        rw [hidx] at h
        simp only [hb, hsz] at h
        rcases hpn : g.patches_needed vf vt with m | ⟨c, ps'⟩
        · rw [hpn] at h
          simp at h
        · rw [hpn] at h
          by_cases hlt : sz > c
          · simp only [if_pos hlt] at h
            refine ⟨c, ?_, hlt⟩
            simp only [Option.some_inj, Except.ok.injEq, UpgradePath.ApplyPatches.injEq] at h
            rw [h]
          · simp [if_neg hlt] at h
      · rintro ⟨c, hpn, hlt⟩
        unfold PatchGraph.find_upgrade_path
        rw [hidx]
        simp only [hb, hsz, hpn]
        simp [Nat.lt_iff_add_one_le.mp hlt, hlt]
    · intro c ps hpn hle
      unfold PatchGraph.find_upgrade_path
      rw [hidx]
      simp only [hb, hsz, hpn]
      have : ¬ sz > c := Nat.not_lt.mpr hle
      simp [this]
    · intro hpn
      unfold PatchGraph.find_upgrade_path
      rw [hidx]
      simp only [hb, hsz]
      rcases h : g.patches_needed vf vt with m | cp
      · rfl
      · rw [h] at hpn
        simp [Except.isOk, Except.toBool] at hpn
  · intro hnone
    unfold PatchGraph.find_upgrade_path
    rw [hnone]

/-- Witness for `c1_find_upgrade_path_choice` on the repository-test graph:
the chain `1→2→3` costs 22 &lt; 72, so `ApplyPatches` is chosen. -/
theorem c1_find_upgrade_path_choice_witness :
    sampleGraph.find_upgrade_path ⟨"1"⟩ ⟨"3"⟩
      = some (.ok (.ApplyPatches [Patch.new ⟨"1"⟩ ⟨"2"⟩, Patch.new ⟨"2"⟩ ⟨"3"⟩])) :=
  (((c1_find_upgrade_path_choice sampleGraph ⟨"1"⟩ ⟨"3"⟩).1 2
      ⟨⟨"3"⟩, some (sampleEntry "3.tar.zst" 72), none, none⟩ 72
      (by decide) (by decide) (by decide)).1 _).mpr
    ⟨22, by decide, by decide⟩

/-- **C10** (implicit). When `from` and `to` are both known builds (and the
size panic is unreachable), `find_upgrade_path` always returns `Ok`: a
failing `patches_needed` (e.g. no route) is swallowed and `InstallBuild` of
the target build is returned rather than an error. -/
theorem c10_no_route_swallowed (g : PatchGraph) (vf vt : Version)
    (fidx idx : Nat) (b : Build) (sz : Nat)
    (hf : lookupA g.builds vf = some fidx)
    (ht : lookupA g.builds vt = some idx)
    (hb : g.nodes.get? idx = some b)
    (hsz : b.size? = some sz) :
    (∃ r, g.find_upgrade_path vf vt = some (.ok r))
    ∧ ((g.patches_needed vf vt).isOk = false →
        g.find_upgrade_path vf vt = some (.ok (.InstallBuild b))) := by
  have hbase : ∀ pn, g.patches_needed vf vt = pn →
      ∃ r, g.find_upgrade_path vf vt = some (.ok r) := by
    intro pn hpn
    unfold PatchGraph.find_upgrade_path
    rw [ht]
    simp only [hb, hsz, hpn]
    rcases pn with m | cp
    · exact ⟨.InstallBuild b, rfl⟩
    · by_cases hlt : sz > cp.1
      · exact ⟨.ApplyPatches cp.2, by simp [hlt]⟩
      · exact ⟨.InstallBuild b, by simp [hlt]⟩
  refine ⟨hbase _ rfl, ?_⟩
  intro hpn
  unfold PatchGraph.find_upgrade_path
  rw [ht]
  simp only [hb, hsz]
  rcases h : g.patches_needed vf vt with m | cp
  · rfl
  · rw [h] at hpn
    simp [Except.isOk, Except.toBool] at hpn

/-- Witness for `c10_no_route_swallowed`: two known builds with no patch
between them — `patches_needed` fails with no route, yet the result is
`Ok(InstallBuild)`. -/
theorem c10_no_route_swallowed_witness :
    discGraph.find_upgrade_path ⟨"x"⟩ ⟨"y"⟩
      = some (.ok (.InstallBuild ⟨⟨"y"⟩, some (sampleEntry "y.tar.zst" 11), none, none⟩)) :=
  (c10_no_route_swallowed discGraph ⟨"x"⟩ ⟨"y"⟩ 0 1
      ⟨⟨"y"⟩, some (sampleEntry "y.tar.zst" 11), none, none⟩ 11
      (by decide) (by decide) (by decide) (by decide)).2 (by decide)

/-! ## Claim C3: patch edges are *not* traversable backwards -/

/-- **C3** (counterexample): in a graph with builds `a`, `b` and a single
patch added in direction `a → b`, `patches_needed` finds the forward route
but *fails* on the reverse direction `b → a` — the petgraph graph is
directed (as the source's own doc comment states), not undirected as the
spec claims. -/
theorem c3_counterexample :
    (c3Graph.patches_needed ⟨"a"⟩ ⟨"b"⟩).isOk = true
    ∧ (c3Graph.patches_needed ⟨"b"⟩ ⟨"a"⟩).isOk = false := by decide

/-- **C3** (amended): the patch graph is *directed* for routing: with builds
`a ≠ b` and a single patch added in direction `a → b`, `patches_needed`
finds the one-patch route from `a` to `b` (with the patch's stored size as
total cost), and fails in the reverse direction `b → a`. -/
theorem c3_amended_directed (a b : Version) (ea eb ep : Entry) (hab : a ≠ b) :
    (twoBuildOnePatch a b ea eb ep).patches_needed a b
      = .ok (ep.size, [Patch.new a b])
    ∧ ((twoBuildOnePatch a b ea eb ep).patches_needed b a).isOk = false := by
  have hg : twoBuildOnePatch a b ea eb ep =
      { nodes := [Build.setLoc .Local ea (Build.new a),
                  Build.setLoc .Local eb (Build.new b)],
        edges := [(0, 1, Patch.setLoc .Local ep (Patch.new a b))],
        builds := [(a, 0), (b, 1)],
        patches := [((a, b), 0)] } := by
    unfold twoBuildOnePatch PatchGraph.addPatchD PatchGraph.add_patch
      PatchGraph.add_build PatchGraph.empty
    simp [lookupA, hab]
  rw [hg]
  constructor
  · simp [PatchGraph.patches_needed, lookupA, hab, astarRun, astarLoop, popMin,
      relaxEdge, PatchGraph.outEdges, setA, reconstruct, adjPairs, routePatches,
      PatchGraph.nodeVersion, Patch.sizeD, Patch.setLoc, Patch.new, Build.setLoc,
      Build.new, List.insertionSort]
  · simp [PatchGraph.patches_needed, lookupA, hab, Ne.symm hab, astarRun,
      astarLoop, popMin, relaxEdge, PatchGraph.outEdges, setA, reconstruct,
      Except.isOk, Except.toBool]

/-- Witness for `c3_amended_directed` at concrete versions and entries. -/
theorem c3_amended_directed_witness :
    (twoBuildOnePatch ⟨"a"⟩ ⟨"b"⟩ (sampleEntry "a.tar.zst" 40)
        (sampleEntry "b.tar.zst" 41) (sampleEntry "a-b.patch.zst" 3)).patches_needed
        ⟨"a"⟩ ⟨"b"⟩ = .ok (3, [Patch.new ⟨"a"⟩ ⟨"b"⟩])
    ∧ ((twoBuildOnePatch ⟨"a"⟩ ⟨"b"⟩ (sampleEntry "a.tar.zst" 40)
        (sampleEntry "b.tar.zst" 41) (sampleEntry "a-b.patch.zst" 3)).patches_needed
        ⟨"b"⟩ ⟨"a"⟩).isOk = false :=
  c3_amended_directed ⟨"a"⟩ ⟨"b"⟩ (sampleEntry "a.tar.zst" 40)
    (sampleEntry "b.tar.zst" 41) (sampleEntry "a-b.patch.zst" 3) (by decide)

/-! ## Claim C2: the returned patch list is sorted, not in route order -/

/-- **C2** (counterexample): on the graph with builds `b`, `a`, `c` and
patches `b → a`, `a → c`, the unique route from `b` to `c` is `b→a, a→c`,
but `patches_needed` returns the list *sorted* by `(from, to)` — `[a→c, b→a]`
— which is not an application sequence from `b` to `c`: its first patch does
not start at `b`, consecutive patches do not chain, and its last patch does
not end at `c`. -/
theorem c2_counterexample :
    c2Graph.patches_needed ⟨"b"⟩ ⟨"c"⟩
      = .ok (2, [Patch.new ⟨"a"⟩ ⟨"c"⟩, Patch.new ⟨"b"⟩ ⟨"a"⟩])
    ∧ isApplicationSequence ⟨"b"⟩ ⟨"c"⟩
        [Patch.new ⟨"a"⟩ ⟨"c"⟩, Patch.new ⟨"b"⟩ ⟨"a"⟩] = false := by decide

/-- `Char.toNat` is injective. -/
theorem char_toNat_inj {x y : Char} (h : x.toNat = y.toNat) : x = y :=
  Char.ext (UInt32.ext h)

/-- `lexCmp` returns `eq` exactly on equal lists. -/
theorem lexCmp_eq_iff : ∀ a b : List Char, lexCmp a b = .eq ↔ a = b := by
  intro a
  induction a with
  | nil => intro b; cases b <;> simp [lexCmp]
  | cons x xs ih =>
    intro b
    cases b with
    | nil => simp [lexCmp]
    | cons y ys =>
      simp only [lexCmp]
      by_cases h1 : x.toNat < y.toNat
      · simp only [if_pos h1]
        constructor
        · intro h; cases h
        · rintro ⟨⟩; omega
      · by_cases h2 : y.toNat < x.toNat
        · simp only [if_neg h1, if_pos h2]
          constructor
          · intro h; cases h
          · rintro ⟨⟩; omega
        · have hxy : x = y := char_toNat_inj (by omega)
          subst hxy
          simp only [if_neg h1, if_neg h2, ih ys, List.cons.injEq, true_and]

/-- Swapping the arguments of `lexCmp` swaps the verdict. -/
theorem lexCmp_swap : ∀ a b : List Char, lexCmp b a = (lexCmp a b).swap := by
  intro a
  induction a with
  | nil => intro b; cases b <;> simp [lexCmp, Ordering.swap]
  | cons x xs ih =>
    intro b
    cases b with
    | nil => simp [lexCmp, Ordering.swap]
    | cons y ys =>
      simp only [lexCmp]
      by_cases h1 : x.toNat < y.toNat
      · simp [if_pos h1, if_neg (by omega : ¬ y.toNat < x.toNat), Ordering.swap]
      · by_cases h2 : y.toNat < x.toNat
        · simp [if_pos h2, if_neg h1, Ordering.swap]
        · simp [if_neg h1, if_neg h2, ih ys]

/-- Strict transitivity of `lexCmp`. -/
theorem lexCmp_lt_trans : ∀ a b c : List Char,
    lexCmp a b = .lt → lexCmp b c = .lt → lexCmp a c = .lt := by
  intro a
  induction a with
  | nil =>
    intro b c hab hbc
    cases b with
    | nil => exact hbc
    | cons y ys =>
      cases c with
      | nil => simp [lexCmp] at hbc
      | cons z zs => simp [lexCmp]
  | cons x xs ih =>
    intro b c hab hbc
    cases b with
    | nil => simp [lexCmp] at hab
    | cons y ys =>
      cases c with
      | nil => simp [lexCmp] at hbc
      | cons z zs =>
        simp only [lexCmp] at hab hbc ⊢
        by_cases hxy : x.toNat < y.toNat
        · by_cases hyz : y.toNat < z.toNat
          · simp [if_pos (by omega : x.toNat < z.toNat)]
          · by_cases hzy : z.toNat < y.toNat
            · rw [if_neg hyz, if_pos hzy] at hbc; cases hbc
            · have : y = z := char_toNat_inj (by omega)
              subst this
              simp [if_pos hxy]
        · by_cases hyx : y.toNat < x.toNat
          · rw [if_neg hxy, if_pos hyx] at hab; cases hab
          · have : x = y := char_toNat_inj (by omega)
            subst this
            rw [if_neg hxy, if_neg hyx] at hab
            by_cases hyz : x.toNat < z.toNat
            · simp [if_pos hyz]
            · by_cases hzy : z.toNat < x.toNat
              · rw [if_neg hyz, if_pos hzy] at hbc; cases hbc
              · rw [if_neg hyz, if_neg hzy] at hbc ⊢
                exact ih ys zs hab hbc

/-- Transitivity of the non-strict `lexCmp ≤`. -/
theorem lexCmp_le_trans : ∀ a b c : List Char,
    lexCmp a b ≠ .gt → lexCmp b c ≠ .gt → lexCmp a c ≠ .gt := by
  intro a b c hab hbc
  rcases h1 : lexCmp a b with _ | _ | _
  · rcases h2 : lexCmp b c with _ | _ | _
    · simp [lexCmp_lt_trans a b c h1 h2]
    · rw [(lexCmp_eq_iff b c).mp h2] at h1
      simp [h1]
    · exact absurd h2 hbc
  · rw [(lexCmp_eq_iff a b).mp h1]
    exact hbc
  · exact absurd h1 hab

/-- `versionCmp` returns `eq` exactly on equal versions. -/
theorem versionCmp_eq_iff (a b : Version) : versionCmp a b = .eq ↔ a = b := by
  unfold versionCmp
  rw [lexCmp_eq_iff]
  rcases a with ⟨⟨la⟩⟩
  rcases b with ⟨⟨lb⟩⟩
  constructor
  · intro h; subst h; rfl
  · intro h; cases h; rfl

/-- Strict transitivity of `versionCmp`. -/
theorem versionCmp_lt_trans (a b c : Version) :
    versionCmp a b = .lt → versionCmp b c = .lt → versionCmp a c = .lt :=
  lexCmp_lt_trans a.data.data b.data.data c.data.data

/-- Transitivity of the non-strict `versionCmp ≤`. -/
theorem versionCmp_le_trans (a b c : Version) :
    versionCmp a b ≠ .gt → versionCmp b c ≠ .gt → versionCmp a c ≠ .gt :=
  lexCmp_le_trans a.data.data b.data.data c.data.data

/-- Swapping the arguments of `patchCmp` swaps the verdict. -/
theorem patchCmp_swap (p q : Patch) : patchCmp q p = (patchCmp p q).swap := by
  unfold patchCmp versionCmp
  rw [lexCmp_swap p.fromV.data.data q.fromV.data.data,
      lexCmp_swap p.toV.data.data q.toV.data.data]
  rcases lexCmp p.fromV.data.data q.fromV.data.data with _ | _ | _ <;>
    simp [Ordering.swap]

/-- Totality of the patch ordering. -/
theorem patchLe_total : ∀ p q : Patch, patchLe p q ∨ patchLe q p := by
  intro p q
  unfold patchLe
  rw [patchCmp_swap p q]
  rcases patchCmp p q with _ | _ | _ <;> simp [Ordering.swap]

/-- Transitivity of the patch ordering. -/
theorem patchLe_trans : ∀ p q r : Patch, patchLe p q → patchLe q r → patchLe p r := by
  intro p q r h1 h2
  unfold patchLe patchCmp at h1 h2 ⊢
  rcases hpq : versionCmp p.fromV q.fromV with _ | _ | _ <;> rw [hpq] at h1 <;>
    rcases hqr : versionCmp q.fromV r.fromV with _ | _ | _ <;> rw [hqr] at h2
  · rw [versionCmp_lt_trans _ _ _ hpq hqr]
    simp
  · rw [← (versionCmp_eq_iff q.fromV r.fromV).mp hqr, hpq]
    simp
  · exact absurd rfl h2
  · rw [(versionCmp_eq_iff p.fromV q.fromV).mp hpq, hqr]
    simp
  · rw [(versionCmp_eq_iff p.fromV q.fromV).mp hpq, hqr]
    exact versionCmp_le_trans _ _ _ h1 h2
  · exact absurd rfl h2
  · exact absurd rfl h1
  · exact absurd rfl h1
  · exact absurd rfl h1

/-- `lookupA` after `setA`. -/
theorem lookupA_setA {κ β : Type} [DecidableEq κ] (m : List (κ × β)) (k k' : κ)
    (v : β) : lookupA (setA m k v) k'
      = if k = k' then some v else lookupA m k' := by
  induction m with
  | nil => simp [setA, lookupA]
  | cons kv rest ih =>
    obtain ⟨k0, v0⟩ := kv
    simp only [setA]
    by_cases h0 : k0 = k
    · subst h0
      simp only [if_pos rfl, lookupA]
      by_cases h1 : k0 = k'
      · subst h1; simp
      · simp [h1, lookupA]
    · simp only [if_neg h0, lookupA]
      by_cases h1 : k0 = k'
      · subst h1
        rw [if_pos rfl, if_neg (by intro h; exact h0 h.symm), if_pos rfl]
      · rw [if_neg h1, if_neg h1, ih]

/-- Members of `outEdges g n` are edges of `g` with source `n`. -/
theorem outEdges_spec (g : PatchGraph) (n : Nat) :
    ∀ ed ∈ g.outEdges n, ed ∈ g.edges ∧ ed.1 = n := by
  intro ed hed
  unfold PatchGraph.outEdges at hed
  rw [List.mem_reverse, List.mem_filter] at hed
  exact ⟨hed.1, by simpa using hed.2⟩

/-- A single relaxation preserves the tracker invariant. -/
theorem relax_trackerInv (g : PatchGraph) (node ns : Nat) (st : AState)
    (ed : Nat × Nat × Patch) (hed : ed ∈ g.edges ∧ ed.1 = node)
    (h : TrackerInv g st) : TrackerInv g (relaxEdge node ns st ed) := by
  have hE : g.isEdge node ed.2.1 := ⟨ed, hed.1, hed.2, rfl⟩
  have hset : ∀ k p, lookupA (setA st.tracker ed.2.1 node) k = some p →
      g.isEdge p k := by
    intro k p hk
    rw [lookupA_setA] at hk
    by_cases hk2 : ed.2.1 = k
    · rw [if_pos hk2] at hk
      cases hk
      exact hk2 ▸ hE
    · rw [if_neg hk2] at hk
      exact h k p hk
  unfold relaxEdge
  split
  · exact h
  · rcases lookupA st.scores ed.2.1 with _ | old
    · exact hset
    · dsimp only
      by_cases hlt : ns + ed.2.2.sizeD < old
      · rw [if_pos hlt]
        exact hset
      · rw [if_neg hlt]
        exact h

/-- Folding relaxation over the out-edges preserves the tracker invariant. -/
theorem foldl_relax_trackerInv (g : PatchGraph) (node ns : Nat) :
    ∀ (eds : List (Nat × Nat × Patch)), (∀ ed ∈ eds, ed ∈ g.edges ∧ ed.1 = node) →
      ∀ st, TrackerInv g st →
      TrackerInv g (eds.foldl (relaxEdge node ns) st) := by
  intro eds
  induction eds with
  | nil => intro _ st h; exact h
  | cons ed rest ih =>
    intro hmem st h
    simp only [List.foldl_cons]
    exact ih (fun e he => hmem e (List.mem_cons_of_mem _ he)) _
      (relax_trackerInv g node ns st ed (hmem ed (List.mem_cons_self ..)) h)

/-- A reconstructed path ends at the node it was reconstructed to. -/
theorem reconstruct_getLast (tr : List (Nat × Nat)) (n : Nat) :
    ∀ fuel, (reconstruct tr n fuel).getLast? = some n := by
  intro fuel
  induction fuel generalizing n with
  | zero => rfl
  | succ f ih =>
    unfold reconstruct
    rcases lookupA tr n with _ | p
    · rfl
    · rw [List.getLast?_append]
      rfl

/-- `windows(2)` of a list with one element appended. -/
theorem adjPairs_append (y : Nat) :
    ∀ xs : List Nat, adjPairs (xs ++ [y])
      = adjPairs xs ++ (match xs.getLast? with
        | none => []
        | some l => [(l, y)]) := by
  intro xs
  induction xs with
  | nil => rfl
  | cons x1 rest ih =>
    cases rest with
    | nil => rfl
    | cons x2 rest2 =>
      have : adjPairs ((x1 :: x2 :: rest2) ++ [y])
          = (x1, x2) :: adjPairs ((x2 :: rest2) ++ [y]) := rfl
      rw [this, ih]
      rfl

/-- Every consecutive pair of a reconstructed path is a tracker entry. -/
theorem reconstruct_adjPairs (tr : List (Nat × Nat)) :
    ∀ fuel n, ∀ ij ∈ adjPairs (reconstruct tr n fuel),
      lookupA tr ij.2 = some ij.1 := by
  intro fuel
  induction fuel with
  | zero => intro n ij hij; cases hij
  | succ f ih =>
    intro n ij hij
    unfold reconstruct at hij
    rcases hp : lookupA tr n with _ | p
    · rw [hp] at hij; cases hij
    · rw [hp] at hij
      rw [adjPairs_append, reconstruct_getLast] at hij
      rcases List.mem_append.mp hij with hij | hij
      · exact ih p ij hij
      · rcases List.mem_cons.mp hij with heq | hij
        · subst heq; exact hp
        · cases hij

/-- What the A* loop guarantees about a successful result: the returned node
sequence ends at the goal node, and every consecutive pair of it follows a
directed edge of the graph. -/
theorem astarLoop_route (g : PatchGraph) (goal : Nat) :
    ∀ fuel st, TrackerInv g st →
      ∀ c steps, astarLoop g goal fuel st = some (c, steps) →
      steps.getLast? = some goal
      ∧ ∀ ij ∈ adjPairs steps, g.isEdge ij.1 ij.2 := by
  intro fuel
  induction fuel with
  | zero => intro st _ c steps h; cases h
  | succ f ih =>
    intro st hinv c steps h
    unfold astarLoop at h
    rcases hpop : popMin st.heap with _ | ⟨⟨s, node⟩, heap'⟩
    · rw [hpop] at h; cases h
    · simp only [hpop] at h
      by_cases hgoal : node = goal
      · rw [if_pos hgoal] at h
        cases h
        subst hgoal
        refine ⟨reconstruct_getLast .., ?_⟩
        intro ij hij
        exact hinv ij.2 ij.1 (reconstruct_adjPairs st.tracker _ node ij hij)
      · rw [if_neg hgoal] at h
        split at h
        · exact ih { st with heap := heap' } hinv c steps h
        · refine ih _ ?_ c steps h
          exact foldl_relax_trackerInv g node _ _ (outEdges_spec g node) _ hinv

/-- **C2** (amended): a successful `patches_needed(from, to)` returns the
patches of the route found by the search *sorted by the `Patch` ordering*
(lexicographic on `(from, to)`), not in application order: the result is a
sorted permutation of the consecutive-pair patches of the discovered node
route; that route ends at `to`'s node and each of its consecutive pairs
follows a patch edge in the edge's stored direction.  The list coincides with
the application sequence only when the sorted order happens to equal the
route order (e.g. versions named in ascending order along the route). -/
theorem c2_amended_sorted_route (g : PatchGraph) (vf vt : Version) (c : Nat)
    (ps : List Patch) (h : g.patches_needed vf vt = .ok (c, ps)) :
    List.Sorted patchLe ps
    ∧ ∃ fi ti steps,
        lookupA g.builds vf = some fi
        ∧ lookupA g.builds vt = some ti
        ∧ astarRun g fi ti = some (c, steps)
        ∧ ps = routePatches g steps
        ∧ ps.Perm ((adjPairs steps).map fun ij =>
            Patch.new (g.nodeVersion ij.1) (g.nodeVersion ij.2))
        ∧ steps.getLast? = some ti
        ∧ ∀ ij ∈ adjPairs steps, g.isEdge ij.1 ij.2 := by
  unfold PatchGraph.patches_needed at h
  rcases hf : lookupA g.builds vf with _ | fi
  · rw [hf] at h; cases h
  rcases ht : lookupA g.builds vt with _ | ti
  · simp only [hf, ht] at h
    exact Except.noConfusion h
  rcases har : astarRun g fi ti with _ | ⟨c', steps⟩
  · simp only [hf, ht, har] at h
    exact Except.noConfusion h
  simp only [hf, ht, har, Except.ok.injEq, Prod.mk.injEq] at h
  obtain ⟨hc, hps⟩ := h
  have hsorted : List.Sorted patchLe (routePatches g steps) :=
    @List.sorted_insertionSort Patch patchLe _ ⟨patchLe_total⟩ ⟨patchLe_trans⟩ _
  have hperm := List.perm_insertionSort patchLe
    ((adjPairs steps).map fun ij => Patch.new (g.nodeVersion ij.1) (g.nodeVersion ij.2))
  have hroute := astarLoop_route g ti (g.edges.length + g.nodes.length + 2)
    { visited := [], scores := [(fi, 0)], tracker := [], heap := [(0, fi)] }
    (fun k p hk => (nomatch hk)) c' steps har
  refine ⟨hps ▸ hsorted, fi, ti, steps, rfl, rfl, ?_, hps.symm, hps ▸ hperm,
    hroute.1, hroute.2⟩
  rw [har, hc]

/-- Witness for `c2_amended_sorted_route` on the `b→a→c` graph. -/
theorem c2_amended_sorted_route_witness :
    List.Sorted patchLe [Patch.new ⟨"a"⟩ ⟨"c"⟩, Patch.new ⟨"b"⟩ ⟨"a"⟩]
    ∧ ∃ fi ti steps,
        lookupA c2Graph.builds ⟨"b"⟩ = some fi
        ∧ lookupA c2Graph.builds ⟨"c"⟩ = some ti
        ∧ astarRun c2Graph fi ti = some (2, steps)
        ∧ [Patch.new ⟨"a"⟩ ⟨"c"⟩, Patch.new ⟨"b"⟩ ⟨"a"⟩] = routePatches c2Graph steps
        ∧ ([Patch.new ⟨"a"⟩ ⟨"c"⟩, Patch.new ⟨"b"⟩ ⟨"a"⟩] : List Patch).Perm
            ((adjPairs steps).map fun ij =>
              Patch.new (c2Graph.nodeVersion ij.1) (c2Graph.nodeVersion ij.2))
        ∧ steps.getLast? = some ti
        ∧ ∀ ij ∈ adjPairs steps, c2Graph.isEdge ij.1 ij.2 :=
  c2_amended_sorted_route c2Graph ⟨"b"⟩ ⟨"c"⟩ 2
    [Patch.new ⟨"a"⟩ ⟨"c"⟩, Patch.new ⟨"b"⟩ ⟨"a"⟩] (by decide)

/-! ## Claim C7: idempotence of `update_from_file_list`

The proof works on the generic upsert fold `runSys`.  Outline: the final
state of a first run satisfies a postcondition — every cell written by the
pass holds the value of its *last* write (`runSys_post`) — and a second run
over a state satisfying that postcondition only re-applies writes that are
either overwritten later or already in place, so it reproduces the same
state and the same error (`runSys_idem`).  The two passes of
`update_from_file_list` are instances (`procBuilds_eq_runSys`,
`procPatches_eq_runSys`). -/

section GenericIdem

variable {K C Item : Type} [DecidableEq K]
variable (cl : Item → StepAct K) (wr : Item → C → C) (fr : K → Item → Option C)

/-- `lookupA` ignores an appended tail when the key is already bound. -/
theorem lookupA_append_left {β : Type} (m d : List (K × β)) (k : K)
    (h : (lookupA m k).isSome) : lookupA (m ++ d) k = lookupA m k := by
  induction m with
  | nil => simp [lookupA] at h
  | cons kv rest ih =>
    obtain ⟨k0, v0⟩ := kv
    by_cases h0 : k0 = k
    · simp [lookupA, h0]
    · simp only [lookupA, if_neg h0] at h ⊢
      exact ih h

/-- `lookupA` falls through to an appended tail when the key is unbound. -/
theorem lookupA_append_none {β : Type} (m d : List (K × β)) (k : K)
    (h : lookupA m k = none) : lookupA (m ++ d) k = lookupA d k := by
  induction m with
  | nil => simp
  | cons kv rest ih =>
    obtain ⟨k0, v0⟩ := kv
    by_cases h0 : k0 = k
    · simp [lookupA, h0] at h
    · simp only [lookupA, if_neg h0] at h ⊢
      exact ih h

/-- `modifyIdx` preserves lengths. -/
theorem length_modifyIdx {γ : Type} (l : List γ) (i : Nat) (f : γ → γ) :
    (modifyIdx l i f).length = l.length := by
  induction l generalizing i with
  | nil => rfl
  | cons c cs ih =>
    cases i with
    | zero => rfl
    | succ n => simp [modifyIdx, ih]

/-- `get?` of `modifyIdx`. -/
theorem get?_modifyIdx {γ : Type} (l : List γ) (i : Nat) (f : γ → γ) (j : Nat) :
    (modifyIdx l i f).get? j = if i = j then (l.get? j).map f else l.get? j := by
  induction l generalizing i j with
  | nil => simp [modifyIdx]
  | cons c cs ih =>
    cases i with
    | zero =>
      cases j with
      | zero => simp [modifyIdx]
      | succ m => simp [modifyIdx]
    | succ n =>
      cases j with
      | zero => simp [modifyIdx]
      | succ m =>
        simp only [modifyIdx, List.get?]
        rw [ih n m]
        by_cases h : n = m
        · simp [h]
        · simp [h, fun hh => h (Nat.succ_injective hh)]

/-- Step equation: an aborting item stops the pass. -/
theorem runSys_cons_abort {it : Item} {m : String} (rest : List Item)
    (st : List C × List (K × Nat)) (h : cl it = .abort m) :
    runSys cl wr fr st (it :: rest) = (st, some m) := by
  simp only [runSys, h]

/-- Step equation: a skipped item leaves the state alone. -/
theorem runSys_cons_skip {it : Item} (rest : List Item)
    (st : List C × List (K × Nat)) (h : cl it = .skip) :
    runSys cl wr fr st (it :: rest) = runSys cl wr fr st rest := by
  simp only [runSys, h]

/-- Step equation: a keyed item with a bound key modifies its cell. -/
theorem runSys_cons_modify {it : Item} {k : K} {i : Nat} (rest : List Item)
    (st : List C × List (K × Nat)) (h : cl it = .key k)
    (h2 : lookupA st.2 k = some i) :
    runSys cl wr fr st (it :: rest)
      = runSys cl wr fr (modifyIdx st.1 i (wr it), st.2) rest := by
  simp only [runSys, h, h2]

/-- Step equation: a keyed item with unbound key and failing guard is
skipped. -/
theorem runSys_cons_freshNone {it : Item} {k : K} (rest : List Item)
    (st : List C × List (K × Nat)) (h : cl it = .key k)
    (h2 : lookupA st.2 k = none) (h3 : fr k it = none) :
    runSys cl wr fr st (it :: rest) = runSys cl wr fr st rest := by
  simp only [runSys, h, h2, h3]

/-- Step equation: a keyed item with unbound key appends a fresh cell. -/
theorem runSys_cons_fresh {it : Item} {k : K} {c0 : C} (rest : List Item)
    (st : List C × List (K × Nat)) (h : cl it = .key k)
    (h2 : lookupA st.2 k = none) (h3 : fr k it = some c0) :
    runSys cl wr fr st (it :: rest)
      = runSys cl wr fr (st.1 ++ [c0], st.2 ++ [(k, st.1.length)]) rest := by
  simp only [runSys, h, h2, h3]

/-- The error of a pass depends only on the item list. -/
theorem runSys_snd : ∀ (items : List Item) (st : List C × List (K × Nat)),
    (runSys cl wr fr st items).2 = errOf cl items := by
  intro items
  induction items with
  | nil => intro st; rfl
  | cons it rest ih =>
    intro st
    unfold runSys errOf
    rcases hcl : cl it with m | _ | k <;> simp only [hcl]
    · exact ih st
    · rcases hlk : lookupA st.2 k with _ | i <;> simp only [hlk]
      · rcases hfr : fr k it with _ | c0 <;> simp only [hfr]
        · exact ih st
        · exact ih _
      · exact ih _

/-- A pass only appends to the key map. -/
theorem runSys_mapGrow : ∀ (items : List Item) (st : List C × List (K × Nat)),
    ∃ d, (runSys cl wr fr st items).1.2 = st.2 ++ d := by
  intro items
  induction items with
  | nil => intro st; exact ⟨[], by simp [runSys]⟩
  | cons it rest ih =>
    intro st
    unfold runSys
    rcases hcl : cl it with m | _ | k <;> simp only [hcl]
    · exact ⟨[], by simp⟩
    · exact ih st
    · rcases hlk : lookupA st.2 k with _ | i <;> simp only [hlk]
      · rcases hfr : fr k it with _ | c0 <;> simp only [hfr]
        · exact ih st
        · obtain ⟨d, hd⟩ := ih (st.1 ++ [c0], st.2 ++ [(k, st.1.length)])
          exact ⟨(k, st.1.length) :: d, by rw [hd, List.append_assoc]; rfl⟩
      · exact ih (modifyIdx st.1 i (wr it), st.2)

/-- A key bound now stays bound to the same index after the pass. -/
theorem runSys_lookup_stable (items : List Item) (st : List C × List (K × Nat))
    (k : K) (i : Nat) (h : lookupA st.2 k = some i) :
    lookupA (runSys cl wr fr st items).1.2 k = some i := by
  obtain ⟨d, hd⟩ := runSys_mapGrow cl wr fr items st
  rw [hd, lookupA_append_left _ _ _ (by simp [h]), h]

/-- `get?` ignores a single appended element away from the append position. -/
theorem get?_append_singleton {γ : Type} (l : List γ) (c : γ) (i : Nat)
    (h : i ≠ l.length) : (l ++ [c]).get? i = l.get? i := by
  by_cases hlt : i < l.length
  · exact List.get?_append hlt
  · rw [List.get?_eq_none.mpr (by simp; omega), List.get?_eq_none.mpr (by omega)]

/-- A cell not written (w.r.t. the final key map) is untouched by the pass. -/
theorem runSys_frame : ∀ (items : List Item) (st : List C × List (K × Nat)) (i : Nat),
    lastWr cl (runSys cl wr fr st items).1.2 i items = none →
    (runSys cl wr fr st items).1.1.get? i = st.1.get? i := by
  intro items
  induction items with
  | nil => intro st i _; rfl
  | cons it rest ih =>
    intro st i h
    unfold lastWr at h
    rcases hcl : cl it with m | _ | k <;> rw [hcl] at h <;> simp only at h
    · rw [runSys_cons_abort cl wr fr rest st hcl]
    · rw [runSys_cons_skip cl wr fr rest st hcl] at h ⊢
      rcases hrest : lastWr cl (runSys cl wr fr st rest).1.2 i rest with _ | x
      · exact ih st i hrest
      · rw [hrest] at h; cases h
    · rcases hlk : lookupA st.2 k with _ | j
      · rcases hfr : fr k it with _ | c0
        · rw [runSys_cons_freshNone cl wr fr rest st hcl hlk hfr] at h ⊢
          rcases hrest : lastWr cl (runSys cl wr fr st rest).1.2 i rest with _ | x
          · exact ih st i hrest
          · rw [hrest] at h; cases h
        · rw [runSys_cons_fresh cl wr fr rest st hcl hlk hfr] at h ⊢
          have hstable : lookupA (runSys cl wr fr
              (st.1 ++ [c0], st.2 ++ [(k, st.1.length)]) rest).1.2 k
              = some st.1.length := by
            refine runSys_lookup_stable cl wr fr rest _ k st.1.length ?_
            show lookupA (st.2 ++ [(k, st.1.length)]) k = some st.1.length
            rw [lookupA_append_none _ _ _ hlk]
            simp [lookupA]
          rcases hrest : lastWr cl (runSys cl wr fr
              (st.1 ++ [c0], st.2 ++ [(k, st.1.length)]) rest).1.2 i rest with _ | x
          · have hcell : cellOf cl (runSys cl wr fr
                (st.1 ++ [c0], st.2 ++ [(k, st.1.length)]) rest).1.2 it
                = some st.1.length := by
              simp only [cellOf, keyOf, hcl, hstable]
            rw [hrest, hcell] at h
            have hne : i ≠ st.1.length := by
              intro hi; rw [hi] at h; simp at h
            rw [ih _ i hrest]
            exact get?_append_singleton st.1 c0 i hne
          · rw [hrest] at h; cases h
      · rw [runSys_cons_modify cl wr fr rest st hcl hlk] at h ⊢
        have hstable : lookupA (runSys cl wr fr
            (modifyIdx st.1 j (wr it), st.2) rest).1.2 k = some j :=
          runSys_lookup_stable cl wr fr rest _ k j hlk
        rcases hrest : lastWr cl (runSys cl wr fr
            (modifyIdx st.1 j (wr it), st.2) rest).1.2 i rest with _ | x
        · have hcell : cellOf cl (runSys cl wr fr
              (modifyIdx st.1 j (wr it), st.2) rest).1.2 it = some j := by
            simp only [cellOf, keyOf, hcl, hstable]
          rw [hrest, hcell] at h
          have hne : j ≠ i := by
            intro hi; rw [hi] at h; simp at h
          rw [ih _ i hrest, get?_modifyIdx, if_neg hne]
        · rw [hrest] at h; cases h

/-- A key that is unbound and whose guard always fails is never added. -/
theorem runSys_lookup_never : ∀ (items : List Item) (st : List C × List (K × Nat))
    (k : K), lookupA st.2 k = none → (∀ it', fr k it' = none) →
    lookupA (runSys cl wr fr st items).1.2 k = none := by
  intro items
  induction items with
  | nil => intro st k h _; exact h
  | cons it rest ih =>
    intro st k h hN
    rcases hcl : cl it with m | _ | k'
    · rw [runSys_cons_abort cl wr fr rest st hcl]; exact h
    · rw [runSys_cons_skip cl wr fr rest st hcl]; exact ih st k h hN
    · rcases hlk : lookupA st.2 k' with _ | j
      · rcases hfr : fr k' it with _ | c0
        · rw [runSys_cons_freshNone cl wr fr rest st hcl hlk hfr]
          exact ih st k h hN
        · rw [runSys_cons_fresh cl wr fr rest st hcl hlk hfr]
          refine ih _ k ?_ hN
          show lookupA (st.2 ++ [(k', st.1.length)]) k = none
          rw [lookupA_append_none _ _ _ h]
          have hne : k' ≠ k := by
            intro he
            rw [he] at hfr
            rw [hN it] at hfr
            cases hfr
          simp [lookupA, hne]
      · rw [runSys_cons_modify cl wr fr rest st hcl hlk]
        exact ih _ k h hN

/-- Postcondition of a pass: (a) a key of a processed item that is absent
from the final map has an always-failing guard; (b) every cell whose last
write is item `it` holds `wr it`-written content (or is out of range). -/
theorem runSys_post (hfW : ∀ k it c, fr k it = some c → ∃ c₀, c = wr it c₀)
    (hfN : ∀ (k : K) it it', fr k it = none → fr k it' = none) :
    ∀ (items : List Item) (st : List C × List (K × Nat)),
    (∀ it k, it ∈ effPre cl items → keyOf cl it = some k →
        lookupA (runSys cl wr fr st items).1.2 k = none → ∀ it', fr k it' = none)
    ∧ (∀ i it, lastWr cl (runSys cl wr fr st items).1.2 i items = some it →
        (runSys cl wr fr st items).1.1.get? i = none
        ∨ ∃ c₀, (runSys cl wr fr st items).1.1.get? i = some (wr it c₀)) := by
  intro items
  induction items with
  | nil =>
    intro st
    exact ⟨fun it k hmem => (nomatch hmem), fun i it h => (nomatch h)⟩
  | cons it0 rest ih =>
    intro st
    rcases hcl : cl it0 with m | _ | k0
    · rw [runSys_cons_abort cl wr fr rest st hcl]
      constructor
      · intro it k hmem
        unfold effPre at hmem
        rw [hcl] at hmem
        cases hmem
      · intro i it h
        unfold lastWr at h
        rw [hcl] at h
        cases h
    · rw [runSys_cons_skip cl wr fr rest st hcl]
      constructor
      · intro it k hmem hkey hnone
        unfold effPre at hmem
        rw [hcl] at hmem
        simp only at hmem
        rcases List.mem_cons.mp hmem with he | hmem
        · subst he
          rw [keyOf, hcl] at hkey
          cases hkey
        · exact (ih st).1 it k hmem hkey hnone
      · intro i it h
        unfold lastWr at h
        rw [hcl] at h
        simp only at h
        rcases hr : lastWr cl (runSys cl wr fr st rest).1.2 i rest with _ | x
        · rw [hr] at h
          have : cellOf cl (runSys cl wr fr st rest).1.2 it0 = none := by
            simp [cellOf, keyOf, hcl]
          rw [this] at h
          simp at h
        · rw [hr] at h
          cases h
          exact (ih st).2 i _ hr
    · rcases hlk : lookupA st.2 k0 with _ | j
      · rcases hfr : fr k0 it0 with _ | c0
        · -- guard fails: the item is skipped
          rw [runSys_cons_freshNone cl wr fr rest st hcl hlk hfr]
          have hnever : lookupA (runSys cl wr fr st rest).1.2 k0 = none :=
            runSys_lookup_never cl wr fr rest st k0 hlk (fun it' => hfN k0 it0 it' hfr)
          constructor
          · intro it k hmem hkey hnone
            unfold effPre at hmem
            rw [hcl] at hmem
            simp only at hmem
            rcases List.mem_cons.mp hmem with he | hmem
            · subst he
              rw [keyOf, hcl] at hkey
              cases hkey
              exact fun it' => hfN _ _ it' hfr
            · exact (ih st).1 it k hmem hkey hnone
          · intro i it h
            unfold lastWr at h
            rw [hcl] at h
            simp only at h
            rcases hr : lastWr cl (runSys cl wr fr st rest).1.2 i rest with _ | x
            · rw [hr] at h
              have : cellOf cl (runSys cl wr fr st rest).1.2 it0 = none := by
                simp [cellOf, keyOf, hcl, hnever]
              rw [this] at h
              simp at h
            · rw [hr] at h
              cases h
              exact (ih st).2 i _ hr
        · -- fresh append
          rw [runSys_cons_fresh cl wr fr rest st hcl hlk hfr]
          have hstable : lookupA (runSys cl wr fr
              (st.1 ++ [c0], st.2 ++ [(k0, st.1.length)]) rest).1.2 k0
              = some st.1.length := by
            refine runSys_lookup_stable cl wr fr rest _ k0 st.1.length ?_
            show lookupA (st.2 ++ [(k0, st.1.length)]) k0 = some st.1.length
            rw [lookupA_append_none _ _ _ hlk]
            simp [lookupA]
          constructor
          · intro it k hmem hkey hnone
            unfold effPre at hmem
            rw [hcl] at hmem
            simp only at hmem
            rcases List.mem_cons.mp hmem with he | hmem
            · subst he
              rw [keyOf, hcl] at hkey
              cases hkey
              rw [hstable] at hnone
              cases hnone
            · exact (ih _).1 it k hmem hkey hnone
          · intro i it h
            unfold lastWr at h
            rw [hcl] at h
            simp only at h
            rcases hr : lastWr cl (runSys cl wr fr
                (st.1 ++ [c0], st.2 ++ [(k0, st.1.length)]) rest).1.2 i rest
              with _ | x
            · rw [hr] at h
              have hcell : cellOf cl (runSys cl wr fr
                  (st.1 ++ [c0], st.2 ++ [(k0, st.1.length)]) rest).1.2 it0
                  = some st.1.length := by
                simp [cellOf, keyOf, hcl, hstable]
              rw [hcell] at h
              by_cases hi : st.1.length = i
              · rw [if_pos (by rw [hi])] at h
                cases h
                subst hi
                right
                have hframe := runSys_frame cl wr fr rest
                  (st.1 ++ [c0], st.2 ++ [(k0, st.1.length)]) st.1.length hr
                obtain ⟨c₀, hc₀⟩ := hfW k0 it0 c0 hfr
                refine ⟨c₀, ?_⟩
                rw [hframe]
                show (st.1 ++ [c0]).get? st.1.length = some (wr it0 c₀)
                rw [List.get?_concat_length, hc₀]
              · rw [if_neg (fun hh => hi (by injection hh))] at h
                cases h
            · rw [hr] at h
              cases h
              exact (ih _).2 i _ hr
      · -- modify in place
        rw [runSys_cons_modify cl wr fr rest st hcl hlk]
        have hstable : lookupA (runSys cl wr fr
            (modifyIdx st.1 j (wr it0), st.2) rest).1.2 k0 = some j :=
          runSys_lookup_stable cl wr fr rest _ k0 j hlk
        constructor
        · intro it k hmem hkey hnone
          unfold effPre at hmem
          rw [hcl] at hmem
          simp only at hmem
          rcases List.mem_cons.mp hmem with he | hmem
          · subst he
            rw [keyOf, hcl] at hkey
            cases hkey
            rw [hstable] at hnone
            cases hnone
          · exact (ih _).1 it k hmem hkey hnone
        · intro i it h
          unfold lastWr at h
          rw [hcl] at h
          simp only at h
          rcases hr : lastWr cl (runSys cl wr fr
              (modifyIdx st.1 j (wr it0), st.2) rest).1.2 i rest with _ | x
          · rw [hr] at h
            have hcell : cellOf cl (runSys cl wr fr
                (modifyIdx st.1 j (wr it0), st.2) rest).1.2 it0 = some j := by
              simp [cellOf, keyOf, hcl, hstable]
            rw [hcell] at h
            by_cases hi : j = i
            · rw [if_pos (by rw [hi])] at h
              cases h
              subst hi
              have hframe := runSys_frame cl wr fr rest
                (modifyIdx st.1 j (wr it0), st.2) j hr
              rw [hframe]
              show (modifyIdx st.1 j (wr it0)).get? j = none ∨ _
              rw [get?_modifyIdx, if_pos rfl]
              rcases st.1.get? j with _ | c
              · exact Or.inl rfl
              · exact Or.inr ⟨c, rfl⟩
            · rw [if_neg (fun hh => hi (by injection hh))] at h
              cases h
          · rw [hr] at h
            cases h
            exact (ih _).2 i _ hr

/-- Step equation of `errOf` at a cons. -/
theorem errOf_cons (it : Item) (rest : List Item) :
    errOf cl (it :: rest)
      = match cl it with
        | .abort m => some m
        | _ => errOf cl rest := rfl

/-- Step equation of `effPre` at a cons. -/
theorem effPre_cons (it : Item) (rest : List Item) :
    effPre cl (it :: rest)
      = match cl it with
        | .abort _ => []
        | _ => it :: effPre cl rest := rfl

/-- Step equation of `lastWr` at a cons. -/
theorem lastWr_cons (m : List (K × Nat)) (i : Nat) (it : Item) (rest : List Item) :
    lastWr cl m i (it :: rest)
      = match cl it with
        | .abort _ => none
        | _ =>
          match lastWr cl m i rest with
          | some x => some x
          | none => if cellOf cl m it = some i then some it else none := rfl

/-- The second-run lemma: running a pass over a state `u` that agrees with a
postcondition-satisfying state `T` — except possibly, up to the overwritten
locality field, on cells that the pass will write again — reproduces exactly
`T` and the pass's error.  (`hov`: a later write fully overwrites an earlier
one.) -/
theorem runSys_gen (hov : ∀ it it' c, wr it (wr it' c) = wr it c)
    (T : List C × List (K × Nat)) :
    ∀ (items : List Item) (u : List C × List (K × Nat)),
    u.2 = T.2 →
    (∀ i, u.1.get? i = T.1.get? i
        ∨ ((lastWr cl T.2 i items).isSome
           ∧ ∃ c c', u.1.get? i = some c ∧ T.1.get? i = some c'
             ∧ ∀ it, wr it c = wr it c')) →
    (∀ i it, lastWr cl T.2 i items = some it →
        T.1.get? i = none ∨ ∃ c₀, T.1.get? i = some (wr it c₀)) →
    (∀ it k, it ∈ effPre cl items → keyOf cl it = some k →
        lookupA T.2 k = none → fr k it = none) →
    runSys cl wr fr u items = (T, errOf cl items) := by
  intro items
  induction items with
  | nil =>
    intro u hm hcell _ _
    have h1 : u.1 = T.1 := by
      refine List.ext_get? fun n => ?_
      rcases hcell n with he | ⟨hsome, _⟩
      · exact he
      · rw [show lastWr cl T.2 n ([] : List Item) = none from rfl] at hsome
        cases hsome
    have hu : u = T := by
      obtain ⟨u1, u2⟩ := u
      obtain ⟨T1, T2⟩ := T
      simp only [Prod.mk.injEq]
      exact ⟨h1, hm⟩
    rw [show runSys cl wr fr u [] = (u, none) from rfl, hu]
    rfl
  | cons it0 rest ih =>
    intro u hm hcell hpostb hposta
    rcases hcl : cl it0 with m | _ | k0
    · -- abort: nothing was processed, so u must equal T
      have hLWnone : ∀ i, lastWr cl T.2 i (it0 :: rest) = none := by
        intro i
        rw [lastWr_cons, hcl]
      have h1 : u.1 = T.1 := by
        refine List.ext_get? fun n => ?_
        rcases hcell n with he | ⟨hsome, _⟩
        · exact he
        · rw [hLWnone n] at hsome
          cases hsome
      have hu : u = T := by
        obtain ⟨u1, u2⟩ := u
        obtain ⟨T1, T2⟩ := T
        simp only [Prod.mk.injEq]
        exact ⟨h1, hm⟩
      rw [runSys_cons_abort cl wr fr rest u hcl, hu, errOf_cons, hcl]
    · -- skip
      have hLWskip : ∀ i, lastWr cl T.2 i (it0 :: rest) = lastWr cl T.2 i rest := by
        intro i
        rw [lastWr_cons, hcl]
        dsimp only
        rcases hLr : lastWr cl T.2 i rest with _ | x
        · simp [cellOf, keyOf, hcl]
        · rfl
      rw [runSys_cons_skip cl wr fr rest u hcl]
      have herr : errOf cl (it0 :: rest) = errOf cl rest := by
        rw [errOf_cons, hcl]
      rw [herr]
      refine ih u hm (fun i => ?_) (fun i it h => hpostb i it (by rw [hLWskip i]; exact h))
        (fun it k hmem => hposta it k (by rw [effPre_cons, hcl]; exact List.mem_cons_of_mem _ hmem))
      rcases hcell i with he | ⟨hsome, hex⟩
      · exact Or.inl he
      · exact Or.inr ⟨by rw [hLWskip i] at hsome; exact hsome, hex⟩
    · -- keyed item
      have hkey0 : keyOf cl it0 = some k0 := by rw [keyOf, hcl]
      have hmem0 : it0 ∈ effPre cl (it0 :: rest) := by
        rw [effPre_cons, hcl]; exact List.mem_cons_self ..
      have herr : errOf cl (it0 :: rest) = errOf cl rest := by
        rw [errOf_cons, hcl]
      rcases hlkT : lookupA T.2 k0 with _ | j
      · -- key absent from the final map: the guard must fail; item skipped
        have hfr0 : fr k0 it0 = none := hposta it0 k0 hmem0 hkey0 hlkT
        have hLWskip : ∀ i, lastWr cl T.2 i (it0 :: rest) = lastWr cl T.2 i rest := by
          intro i
          rw [lastWr_cons, hcl]
          dsimp only
          rcases hLr : lastWr cl T.2 i rest with _ | x
          · simp [cellOf, keyOf, hcl, hlkT]
          · rfl
        rw [runSys_cons_freshNone cl wr fr rest u hcl (by rw [hm]; exact hlkT) hfr0, herr]
        refine ih u hm (fun i => ?_) (fun i it h => hpostb i it (by rw [hLWskip i]; exact h))
          (fun it k hmem => hposta it k (by rw [effPre_cons, hcl]; exact List.mem_cons_of_mem _ hmem))
        rcases hcell i with he | ⟨hsome, hex⟩
        · exact Or.inl he
        · exact Or.inr ⟨by rw [hLWskip i] at hsome; exact hsome, hex⟩
      · -- key bound: in-place modification
        have hcell0 : cellOf cl T.2 it0 = some j := by
          simp [cellOf, keyOf, hcl, hlkT]
        have hLWcons : ∀ i, lastWr cl T.2 i (it0 :: rest)
            = match lastWr cl T.2 i rest with
              | some x => some x
              | none => if j = i then some it0 else none := by
          intro i
          rw [lastWr_cons, hcl]
          dsimp only
          rcases hLr : lastWr cl T.2 i rest with _ | x
          · rw [hcell0]
            by_cases hj : j = i
            · rw [if_pos (by rw [hj]), if_pos hj]
            · rw [if_neg (fun hh => hj (by injection hh)), if_neg hj]
          · rfl
        rw [runSys_cons_modify cl wr fr rest u hcl (by rw [hm]; exact hlkT), herr]
        refine ih (modifyIdx u.1 j (wr it0), u.2) hm (fun i => ?_)
          (fun i it h => hpostb i it (by rw [hLWcons i, h]))
          (fun it k hmem => hposta it k (by rw [effPre_cons, hcl]; exact List.mem_cons_of_mem _ hmem))
        show (modifyIdx u.1 j (wr it0)).get? i = T.1.get? i ∨ _
        rw [get?_modifyIdx]
        by_cases hij : j = i
        · subst hij
          rw [if_pos rfl]
          rcases hLr : lastWr cl T.2 j rest with _ | x
          · -- `it0` is the last writer of cell `j`
            have hlast : lastWr cl T.2 j (it0 :: rest) = some it0 := by
              rw [hLWcons j, hLr]
              simp
            rcases hpostb j it0 hlast with hTn | ⟨c₀, hTc⟩
            · -- cell out of range in `T`: also out of range in `u`
              rcases hcell j with he | ⟨_, c, c', huc, htc', _⟩
              · rw [he, hTn]
                simp
              · rw [htc'] at hTn
                cases hTn
            · rcases hcell j with he | ⟨_, c, c', huc, htc', heqw⟩
              · rw [he, hTc]
                refine Or.inl ?_
                simp only [Option.map_some']
                rw [hov it0 it0 c₀, ← hTc]
              · rw [huc, hTc]
                refine Or.inl ?_
                simp only [Option.map_some']
                rw [hTc] at htc'
                injection htc' with htc'
                rw [heqw it0, ← htc', hov it0 it0 c₀]
          · -- cell `j` is written again later
            rcases hcell j with he | ⟨_, c, c', huc, htc', heqw⟩
            · rcases hTj : T.1.get? j with _ | c'
              · rw [he, hTj]
                simp
              · refine Or.inr ⟨rfl, wr it0 c', c', ?_, rfl, fun it => hov it it0 c'⟩
                rw [he, hTj]
                rfl
            · refine Or.inr ⟨rfl, wr it0 c, c', ?_, htc', fun it => ?_⟩
              · rw [huc]; rfl
              · rw [hov it it0 c, heqw it]
        · rw [if_neg hij]
          rcases hcell i with he | ⟨hsome, hex⟩
          · exact Or.inl he
          · refine Or.inr ⟨?_, hex⟩
            rw [hLWcons i] at hsome
            rcases hLr : lastWr cl T.2 i rest with _ | x
            · rw [hLr] at hsome
              simp only [if_neg hij] at hsome
              cases hsome
            · rfl

/-- Idempotence of a pass: re-running it on its own output state changes
nothing and yields the same error. -/
theorem runSys_idem (hov : ∀ it it' c, wr it (wr it' c) = wr it c)
    (hfW : ∀ k it c, fr k it = some c → ∃ c₀, c = wr it c₀)
    (hfN : ∀ (k : K) it it', fr k it = none → fr k it' = none)
    (items : List Item) (st : List C × List (K × Nat)) :
    runSys cl wr fr (runSys cl wr fr st items).1 items
      = ((runSys cl wr fr st items).1, errOf cl items) := by
  have hpost := runSys_post cl wr fr hfW hfN items st
  refine runSys_gen cl wr fr hov (runSys cl wr fr st items).1 items
    (runSys cl wr fr st items).1 rfl (fun i => Or.inl rfl) hpost.2 ?_
  intro it k hmem hkey hnone
  exact hpost.1 it k hmem hkey hnone it

end GenericIdem

/-! ## Claim C8: the locality invariant -/

/-- Elements of `modifyIdx l i f` come from `l`, possibly through `f`. -/
theorem mem_modifyIdx {γ : Type} (l : List γ) (i : Nat) (f : γ → γ) :
    ∀ y ∈ modifyIdx l i f, y ∈ l ∨ ∃ x, x ∈ l ∧ y = f x := by
  induction l generalizing i with
  | nil => intro y hy; cases hy
  | cons c cs ih =>
    intro y hy
    cases i with
    | zero =>
      rcases List.mem_cons.mp hy with heq | hy
      · exact Or.inr ⟨c, List.mem_cons_self .., heq⟩
      · exact Or.inl (List.mem_cons_of_mem _ hy)
    | succ n =>
      rcases List.mem_cons.mp hy with heq | hy
      · exact Or.inl (heq ▸ List.mem_cons_self ..)
      · rcases ih n y hy with h | ⟨x, hx, hfx⟩
        · exact Or.inl (List.mem_cons_of_mem _ h)
        · exact Or.inr ⟨x, List.mem_cons_of_mem _ hx, hfx⟩

/-- A `Build` that just received an entry carries one. -/
theorem build_setLoc_located (loc : Location) (e : Entry) (b : Build) :
    ((Build.setLoc loc e b).localEnt.isSome
      || (Build.setLoc loc e b).remoteEnt.isSome) = true := by
  cases loc <;> simp [Build.setLoc]

/-- A `Patch` that just received an entry carries one. -/
theorem patch_setLoc_located (loc : Location) (e : Entry) (p : Patch) :
    ((Patch.setLoc loc e p).localEnt.isSome
      || (Patch.setLoc loc e p).remoteEnt.isSome) = true := by
  cases loc <;> simp [Patch.setLoc]

/-- `add_build` preserves the locality invariant. -/
theorem allLocated_add_build {g : PatchGraph} (v : Version) (e : Entry)
    (loc : Location) (h : g.allLocated) : (g.add_build v e loc).allLocated := by
  obtain ⟨hn, he⟩ := h
  unfold PatchGraph.add_build
  rcases lookupA g.builds v with _ | idx
  · refine ⟨?_, he⟩
    intro b hb
    simp only at hb
    rcases List.mem_append.mp hb with hb | hb
    · exact hn b hb
    · rcases List.mem_cons.mp hb with heq | hb
      · subst heq; exact build_setLoc_located ..
      · cases hb
  · refine ⟨?_, he⟩
    intro b hb
    simp only at hb
    rcases mem_modifyIdx _ _ _ b hb with hb | ⟨x, hx, hfx⟩
    · exact hn b hb
    · subst hfx; exact build_setLoc_located ..

/-- `add_patch` (with failure leaving the graph unchanged) preserves the
locality invariant. -/
theorem allLocated_addPatchD {g : PatchGraph} (vf vt : Version) (e : Entry)
    (loc : Location) (h : g.allLocated) : (g.addPatchD vf vt e loc).allLocated := by
  obtain ⟨hn, he⟩ := h
  unfold PatchGraph.addPatchD PatchGraph.add_patch
  rcases lookupA g.patches (vf, vt) with _ | idx
  · rcases lookupA g.builds vf with _ | pidx
    · exact ⟨hn, he⟩
    · rcases lookupA g.builds vt with _ | nidx
      · exact ⟨hn, he⟩
      · refine ⟨hn, ?_⟩
        intro t ht
        simp only at ht
        rcases List.mem_append.mp ht with ht | ht
        · exact he t ht
        · rcases List.mem_cons.mp ht with heq | ht
          · subst heq; exact patch_setLoc_located ..
          · cases ht
  · refine ⟨hn, ?_⟩
    intro t ht
    simp only at ht
    rcases mem_modifyIdx _ _ _ t ht with ht | ⟨x, hx, hfx⟩
    · exact he t ht
    · subst hfx; exact patch_setLoc_located ..

/-- The builds pass preserves the locality invariant. -/
theorem allLocated_procBuilds (loc : Location) (list : List Entry) :
    ∀ g : PatchGraph, g.allLocated → (procBuilds loc g list).1.allLocated := by
  induction list with
  | nil => intro g h; exact h
  | cons e rest ih =>
    intro g h
    unfold procBuilds
    split
    · exact ih g h
    · rcases build_version_from_path e.path with m | v
      · exact h
      · exact ih _ (allLocated_add_build _ _ _ h)

/-- The patches pass preserves the locality invariant. -/
theorem allLocated_procPatches (loc : Location) (list : List Entry) :
    ∀ g : PatchGraph, g.allLocated → (procPatches loc g list).1.allLocated := by
  induction list with
  | nil => intro g h; exact h
  | cons e rest ih =>
    intro g h
    unfold procPatches
    split
    · exact ih g h
    · rcases patchFromPath e.path with m | vv
      · exact h
      · exact ih _ (allLocated_addPatchD _ _ _ _ h)

/-- `update_from_file_list` preserves the locality invariant. -/
theorem allLocated_update {g : PatchGraph} (list : List Entry) (loc : Location)
    (h : g.allLocated) : (g.update_from_file_list list loc).1.allLocated := by
  have h1 := allLocated_procBuilds loc
    (list.filter fun e => strEndsWith e.path ".tar.zst") g h
  unfold PatchGraph.update_from_file_list
  rcases hpb : procBuilds loc g (list.filter fun e => strEndsWith e.path ".tar.zst")
    with ⟨g1, _ | m⟩
  · rw [hpb] at h1
    exact allLocated_procPatches _ _ _ h1
  · rw [hpb] at h1
    exact h1

/-- **C8.** After every sequence of mutations through the public API
(`add_build`, `add_patch`, `update_from_file_list`, starting from the empty
graph), every build node and every patch edge carries at least one of its
`local`/`remote` entries. -/
theorem c8_locality_invariant (g : PatchGraph) (h : Reachable g) :
    g.allLocated := by
  induction h with
  | empty => exact ⟨fun b hb => (nomatch hb), fun t ht => (nomatch ht)⟩
  | add_build v e loc _ ih => exact allLocated_add_build v e loc ih
  | add_patch vf vt e loc _ ih => exact allLocated_addPatchD vf vt e loc ih
  | update list loc _ ih => exact allLocated_update list loc ih

/-- Witness for `c8_locality_invariant` on a concrete mutation sequence
(the `this_is_fine` listing followed by an `add_build` and an `add_patch`). -/
theorem c8_locality_invariant_witness :
    (((PatchGraph.empty.update_from_file_list
        [sampleEntry "1.tar.zst" 42, sampleEntry "1-2.patch.zst" 2,
         sampleEntry "2-3.patch.zst" 20, sampleEntry "2.tar.zst" 64,
         sampleEntry "3.tar.zst" 72] .Local).1.add_build ⟨"4"⟩
          (sampleEntry "4.tar.zst" 9) .Remote).addPatchD ⟨"3"⟩ ⟨"4"⟩
          (sampleEntry "3-4.patch.zst" 1) .Remote).allLocated :=
  c8_locality_invariant _
    (Reachable.add_patch _ _ _ _
      (Reachable.add_build _ _ _
        (Reachable.update _ _ Reachable.empty)))

/-! ## Claim C7: idempotence of `update_from_file_list`

The two passes of `update_from_file_list` are each an instance of the
generic upsert fold `runSys`; the bridge lemmas below make that precise,
and `runSys_idem` then gives idempotence of the whole update. -/

/-- The builds pass is `runSys` instantiated with `clBuild`/`wrBuild`/
`frBuild`, acting on the `(nodes, builds)` components of the graph. -/
theorem procBuilds_eq_runSys (loc : Location) :
    ∀ (bl : List Entry) (g : PatchGraph),
    procBuilds loc g bl
      = ({ g with
            nodes := (runSys clBuild (wrBuild loc) (frBuild loc) (g.nodes, g.builds) bl).1.1,
            builds := (runSys clBuild (wrBuild loc) (frBuild loc) (g.nodes, g.builds) bl).1.2 },
         (runSys clBuild (wrBuild loc) (frBuild loc) (g.nodes, g.builds) bl).2) := by
  intro bl
  induction bl with
  | nil => intro g; rfl
  | cons e rest ih =>
    intro g
    simp only [procBuilds]
    by_cases hs : e.path.data.getLast? = some '/'
    · rw [if_pos hs,
        runSys_cons_skip clBuild (wrBuild loc) (frBuild loc) rest (g.nodes, g.builds)
          (by unfold clBuild; rw [if_pos hs])]
      exact ih g
    · rw [if_neg hs]
      rcases hbv : build_version_from_path e.path with m | v
      · rw [runSys_cons_abort clBuild (wrBuild loc) (frBuild loc) rest (g.nodes, g.builds)
          (by unfold clBuild; rw [if_neg hs, hbv])]
      · have hkey : clBuild e = StepAct.key v := by unfold clBuild; rw [if_neg hs, hbv]
        rcases hlk : lookupA g.builds v with _ | idx
        · rw [runSys_cons_fresh clBuild (wrBuild loc) (frBuild loc) rest (g.nodes, g.builds)
            hkey hlk rfl]
          have hadd : g.add_build v e loc
              = { g with nodes := g.nodes ++ [Build.setLoc loc e (Build.new v)],
                         builds := g.builds ++ [(v, g.nodes.length)] } := by
            unfold PatchGraph.add_build; rw [hlk]
          show procBuilds loc (g.add_build v e loc) rest = _
          rw [hadd]
          exact ih _
        · rw [runSys_cons_modify clBuild (wrBuild loc) (frBuild loc) rest (g.nodes, g.builds)
            hkey hlk]
          have hadd : g.add_build v e loc
              = { g with nodes := modifyIdx g.nodes idx (Build.setLoc loc e) } := by
            unfold PatchGraph.add_build; rw [hlk]
          show procBuilds loc (g.add_build v e loc) rest = _
          rw [hadd]
          exact ih _

/-- The patches pass is `runSys` instantiated with `clPatch`/`wrPatch`/
`frPatch` over the pass-constant builds map, acting on the
`(edges, patches)` components of the graph. -/
theorem procPatches_eq_runSys (loc : Location) (B : List (Version × Nat)) :
    ∀ (pl : List Entry) (g : PatchGraph), g.builds = B →
    procPatches loc g pl
      = ({ g with
            edges := (runSys clPatch (wrPatch loc) (frPatch B loc) (g.edges, g.patches) pl).1.1,
            patches := (runSys clPatch (wrPatch loc) (frPatch B loc) (g.edges, g.patches) pl).1.2 },
         (runSys clPatch (wrPatch loc) (frPatch B loc) (g.edges, g.patches) pl).2) := by
  intro pl
  induction pl with
  | nil => intro g _; rfl
  | cons e rest ih =>
    intro g hB
    subst hB
    simp only [procPatches]
    by_cases hs : e.path.data.getLast? = some '/'
    · rw [if_pos hs,
        runSys_cons_skip clPatch (wrPatch loc) (frPatch g.builds loc) rest
          (g.edges, g.patches) (by unfold clPatch; rw [if_pos hs])]
      exact ih g rfl
    · rw [if_neg hs]
      rcases hpf : patchFromPath e.path with m | ⟨vf, vt⟩
      · rw [runSys_cons_abort clPatch (wrPatch loc) (frPatch g.builds loc) rest
          (g.edges, g.patches) (by unfold clPatch; rw [if_neg hs, hpf])]
      · have hkey : clPatch e = StepAct.key (vf, vt) := by unfold clPatch; rw [if_neg hs, hpf]
        show procPatches loc (g.addPatchD vf vt e loc) rest = _
        rcases hlk : lookupA g.patches (vf, vt) with _ | idx
        · rcases hpv : lookupA g.builds vf with _ | pidx
          · have hfr : frPatch g.builds loc (vf, vt) e = none := by
              simp only [frPatch]; rw [hpv]
            rw [runSys_cons_freshNone clPatch (wrPatch loc) (frPatch g.builds loc) rest
              (g.edges, g.patches) hkey hlk hfr]
            have hskip : g.addPatchD vf vt e loc = g := by
              unfold PatchGraph.addPatchD PatchGraph.add_patch; rw [hlk, hpv]
            rw [hskip]
            exact ih g rfl
          · rcases hnx : lookupA g.builds vt with _ | nidx
            · have hfr : frPatch g.builds loc (vf, vt) e = none := by
                simp only [frPatch]; rw [hpv, hnx]
              rw [runSys_cons_freshNone clPatch (wrPatch loc) (frPatch g.builds loc) rest
                (g.edges, g.patches) hkey hlk hfr]
              have hskip : g.addPatchD vf vt e loc = g := by
                unfold PatchGraph.addPatchD PatchGraph.add_patch; rw [hlk, hpv, hnx]
              rw [hskip]
              exact ih g rfl
            · have hfr : frPatch g.builds loc (vf, vt) e
                  = some (pidx, nidx, Patch.setLoc loc e (Patch.new vf vt)) := by
                simp only [frPatch]; rw [hpv, hnx]
              rw [runSys_cons_fresh clPatch (wrPatch loc) (frPatch g.builds loc) rest
                (g.edges, g.patches) hkey hlk hfr]
              have hadd : g.addPatchD vf vt e loc
                  = { g with
                      edges := g.edges
                        ++ [(pidx, nidx, Patch.setLoc loc e (Patch.new vf vt))],
                      patches := g.patches ++ [((vf, vt), g.edges.length)] } := by
                unfold PatchGraph.addPatchD PatchGraph.add_patch; rw [hlk, hpv, hnx]
              rw [hadd]
              exact ih _ rfl
        · rw [runSys_cons_modify clPatch (wrPatch loc) (frPatch g.builds loc) rest
            (g.edges, g.patches) hkey hlk]
          have hadd : g.addPatchD vf vt e loc
              = { g with edges :=
                    (modifyIdx g.edges idx
                      (fun t => (t.1, t.2.1, Patch.setLoc loc e t.2.2))) } := by
            unfold PatchGraph.addPatchD PatchGraph.add_patch; rw [hlk]
          rw [hadd]
          exact ih _ rfl

/-- Setting a locality entry twice keeps only the last write (build cells). -/
theorem wrBuild_overwrite (loc : Location) (e e' : Entry) (b : Build) :
    wrBuild loc e (wrBuild loc e' b) = wrBuild loc e b := by
  cases loc <;> rfl

/-- A fresh build cell is itself a written cell. -/
theorem frBuild_shape (loc : Location) (v : Version) (e : Entry) (c : Build)
    (h : frBuild loc v e = some c) : ∃ c₀, c = wrBuild loc e c₀ := by
  refine ⟨Build.new v, ?_⟩
  have h' : Build.setLoc loc e (Build.new v) = c := Option.some.inj h
  rw [← h']; rfl

/-- The fresh-cell guard of the builds pass never fails. -/
theorem frBuild_none (loc : Location) (v : Version) (e e' : Entry)
    (h : frBuild loc v e = none) : frBuild loc v e' = none :=
  Option.noConfusion h

/-- Setting a locality entry twice keeps only the last write (patch edges). -/
theorem wrPatch_overwrite (loc : Location) (e e' : Entry) (t : Nat × Nat × Patch) :
    wrPatch loc e (wrPatch loc e' t) = wrPatch loc e t := by
  cases loc <;> rfl

/-- A fresh patch cell is itself a written cell. -/
theorem frPatch_shape (B : List (Version × Nat)) (loc : Location)
    (k : Version × Version) (e : Entry) (c : Nat × Nat × Patch)
    (h : frPatch B loc k e = some c) : ∃ c₀, c = wrPatch loc e c₀ := by
  obtain ⟨vf, vt⟩ := k
  simp only [frPatch] at h
  rcases hpv : lookupA B vf with _ | pidx
  · rw [hpv] at h
    exact Option.noConfusion h
  · rw [hpv] at h
    rcases hnx : lookupA B vt with _ | nidx
    · rw [hnx] at h
      exact Option.noConfusion h
    · rw [hnx] at h
      refine ⟨(pidx, nidx, Patch.new vf vt), ?_⟩
      rw [← Option.some.inj h]; rfl

/-- Whether the fresh-cell guard of the patches pass fails depends only on
the key, not on the entry. -/
theorem frPatch_none (B : List (Version × Nat)) (loc : Location)
    (k : Version × Version) (e e' : Entry)
    (h : frPatch B loc k e = none) : frPatch B loc k e' = none := by
  obtain ⟨vf, vt⟩ := k
  rcases hpv : lookupA B vf with _ | pidx
  · simp only [frPatch, hpv]
  · rcases hnx : lookupA B vt with _ | nidx
    · simp only [frPatch, hpv, hnx]
    · rw [show frPatch B loc (vf, vt) e
          = some (pidx, nidx, Patch.setLoc loc e (Patch.new vf vt)) from by
          simp only [frPatch]; rw [hpv, hnx]] at h
      exact Option.noConfusion h

/-- `procBuilds` on a graph given by components: the `(nodes, builds)` state
passes through `runSys` while `edges` and `patches` are untouched. -/
theorem procBuilds_runSys_mk (loc : Location) (st : List Build × List (Version × Nat))
    (E : List (Nat × Nat × Patch)) (P : List ((Version × Version) × Nat))
    (bl : List Entry) :
    procBuilds loc ⟨st.1, E, st.2, P⟩ bl
      = (⟨(runSys clBuild (wrBuild loc) (frBuild loc) st bl).1.1, E,
          (runSys clBuild (wrBuild loc) (frBuild loc) st bl).1.2, P⟩,
         (runSys clBuild (wrBuild loc) (frBuild loc) st bl).2) :=
  procBuilds_eq_runSys loc bl ⟨st.1, E, st.2, P⟩

/-- `procPatches` on a graph given by components: the `(edges, patches)` state
passes through `runSys` while `nodes` and `builds` are untouched. -/
theorem procPatches_runSys_mk (loc : Location) (B : List (Version × Nat))
    (N : List Build) (st : List (Nat × Nat × Patch) × List ((Version × Version) × Nat))
    (pl : List Entry) :
    procPatches loc ⟨N, st.1, B, st.2⟩ pl
      = (⟨N, (runSys clPatch (wrPatch loc) (frPatch B loc) st pl).1.1, B,
          (runSys clPatch (wrPatch loc) (frPatch B loc) st pl).1.2⟩,
         (runSys clPatch (wrPatch loc) (frPatch B loc) st pl).2) :=
  procPatches_eq_runSys loc B pl ⟨N, st.1, B, st.2⟩ rfl

/-- Re-running `updateCore` on its own output graph returns the same graph
and the same result. -/
theorem updateCore_idem (loc : Location) (bl pl : List Entry) (g : PatchGraph) :
    updateCore loc bl pl (updateCore loc bl pl g).1 = updateCore loc bl pl g := by
  obtain ⟨N, E, B, P⟩ := g
  have hsndB := runSys_snd clBuild (wrBuild loc) (frBuild loc) bl (N, B)
  have hidB := runSys_idem clBuild (wrBuild loc) (frBuild loc)
    (wrBuild_overwrite loc) (frBuild_shape loc) (frBuild_none loc) bl (N, B)
  rcases hR : runSys clBuild (wrBuild loc) (frBuild loc) (N, B) bl with ⟨⟨N1, B1⟩, _ | m⟩
  · -- builds pass succeeded
    rw [hR] at hidB hsndB
    dsimp only at hidB hsndB
    have herrB : errOf clBuild bl = none := hsndB.symm
    have hb1 : procBuilds loc ⟨N, E, B, P⟩ bl = (⟨N1, E, B1, P⟩, none) := by
      have h := procBuilds_runSys_mk loc (N, B) E P bl
      rw [hR] at h; exact h
    have hsndP := runSys_snd clPatch (wrPatch loc) (frPatch B1 loc) pl (E, P)
    have hidP := runSys_idem clPatch (wrPatch loc) (frPatch B1 loc)
      (wrPatch_overwrite loc) (frPatch_shape B1 loc) (frPatch_none B1 loc) pl (E, P)
    rcases hS : runSys clPatch (wrPatch loc) (frPatch B1 loc) (E, P) pl
      with ⟨⟨E1, P1⟩, perr⟩
    rw [hS] at hidP hsndP
    dsimp only at hidP hsndP
    have hp1 : procPatches loc ⟨N1, E, B1, P⟩ pl = (⟨N1, E1, B1, P1⟩, perr) := by
      have h := procPatches_runSys_mk loc B1 N1 (E, P) pl
      rw [hS] at h; exact h
    have hu1 : updateCore loc bl pl ⟨N, E, B, P⟩ = (⟨N1, E1, B1, P1⟩, perr) := by
      unfold updateCore
      rw [hb1]
      exact hp1
    rw [hu1]
    have hb2 : procBuilds loc ⟨N1, E1, B1, P1⟩ bl = (⟨N1, E1, B1, P1⟩, none) := by
      have h := procBuilds_runSys_mk loc (N1, B1) E1 P1 bl
      rw [hidB, herrB] at h
      exact h
    have hp2 : procPatches loc ⟨N1, E1, B1, P1⟩ pl = (⟨N1, E1, B1, P1⟩, perr) := by
      have h := procPatches_runSys_mk loc B1 N1 (E1, P1) pl
      rw [hidP] at h
      rw [← hsndP] at h
      exact h
    show updateCore loc bl pl ⟨N1, E1, B1, P1⟩ = _
    unfold updateCore
    rw [hb2]
    exact hp2
  · -- builds pass aborted
    rw [hR] at hidB hsndB
    dsimp only at hidB hsndB
    have herrB : errOf clBuild bl = some m := hsndB.symm
    have hb1 : procBuilds loc ⟨N, E, B, P⟩ bl = (⟨N1, E, B1, P⟩, some m) := by
      have h := procBuilds_runSys_mk loc (N, B) E P bl
      rw [hR] at h; exact h
    have hu1 : updateCore loc bl pl ⟨N, E, B, P⟩ = (⟨N1, E, B1, P⟩, some m) := by
      unfold updateCore
      rw [hb1]
    rw [hu1]
    have hb2 : procBuilds loc ⟨N1, E, B1, P⟩ bl = (⟨N1, E, B1, P⟩, some m) := by
      have h := procBuilds_runSys_mk loc (N1, B1) E P bl
      rw [hidB, herrB] at h
      exact h
    show updateCore loc bl pl ⟨N1, E, B1, P⟩ = _
    unfold updateCore
    rw [hb2]

/-- C7: `update_from_file_list` is idempotent — calling it twice in a row
with the same listing and location yields exactly the graph (and result) of
a single call: localities are overwritten in place and no duplicate build
nodes, patch edges, or map entries are created. -/
theorem c7_update_idempotent (g : PatchGraph) (l : List Entry) (loc : Location) :
    (g.update_from_file_list l loc).1.update_from_file_list l loc
      = g.update_from_file_list l loc :=
  updateCore_idem loc (l.filter (fun e => strEndsWith e.path ".tar.zst"))
    (l.filter (fun e => strEndsWith e.path ".patch.zst")) g

end Artefacta
